import Mathlib

/-!
Verification development for the `jemez/dflow_casimir.py` module of the
vw-jemez repository: a shallow embedding of the ESRI ASCII raster codec
(`ESRIAsc.__init__` reading a file and `ESRIAsc.write`), the CASiMiR
vegetation-succession step (`casimir`), the mesh-to-raster regridding
post-processing (`shear_mesh_to_asc`), and the DFLOW orchestration wrapper
(`casimir_with_dflow_io`).

Modelling conventions:
* Python numbers are modelled exactly: `float` values as `ℚ` (every decimal
  literal is a rational; the claims under study concern comparisons and
  additions only, which the rational model captures), Python `int` as `ℤ`.
  A dynamically typed numeric attribute (the six header fields, which the
  file reader creates with `int(...)` or `float(...)`) is a `PyNum`.
* `int(x)` on a float truncates toward zero: `pyInt`.
* Fallible operations (KeyError on a missing resistance-dict code, IndexError,
  ValueError from malformed text) return `Option`/`Except`.
* The scipy `griddata` linear interpolator is external library code; it is
  abstracted as a function `interp : ℚ → ℚ → Option ℚ` giving the interpolated
  value at a target point, `none` standing for the NaN produced at points
  outside the convex hull of the mesh samples.  Everything `dflow_casimir.py`
  itself does with the interpolated matrix (meshgrid layout, `flipud`,
  `reshape`, NaN substitution) is modelled concretely.
* The Excel-derived resistance lookup `dict(zip(cas_df['Code.1'],
  cas_df['shear_resis']))` is external tabular input; it enters the model as
  the lookup function `R : ℤ → Option ℚ` (`none` = key absent = KeyError).
-/

/-- Python `int(x)` applied to a float: truncation toward zero. -/
def pyInt (q : ℚ) : ℤ := q.num.tdiv (q.den : ℤ)

/-- A dynamically typed Python number: either an `int` or a `float`.
The file reader stores `int` values for `ncols`, `nrows`, `cellsize` and
`float` values for `xllcorner`, `yllcorner`, `NODATA_value`. -/
inductive PyNum where
  | int (z : ℤ)
  | float (q : ℚ)
deriving DecidableEq

/-- Numeric value of a `PyNum` (Python arithmetic and `==` comparisons between
`int` and `float` coincide with comparison of the represented rationals). -/
def PyNum.toRat : PyNum → ℚ
  | .int z => (z : ℚ)
  | .float q => q

/-- Python `int(x)` applied to a `PyNum`. -/
def PyNum.pyIntVal : PyNum → ℤ
  | .int z => z
  | .float q => pyInt q

/-- The `ESRIAsc` raster: six header attributes plus the flat row-major data
sequence (always floats, hence `List ℚ`).  The `file_path` attribute of the
Python class is bookkeeping never used by the model's operations and is
omitted. -/
structure ESRIAsc where
  ncols : PyNum
  nrows : PyNum
  xllcorner : PyNum
  yllcorner : PyNum
  cellsize : PyNum
  NODATA_value : PyNum
  data : List ℚ
deriving DecidableEq

/-- `ESRIAsc.header_dict`: the six header fields, packaged for reuse as the
regridding target-grid parameters. -/
structure HeaderDictR where
  ncols : PyNum
  nrows : PyNum
  xllcorner : PyNum
  yllcorner : PyNum
  cellsize : PyNum
  NODATA_value : PyNum
deriving DecidableEq

def ESRIAsc.header_dict (g : ESRIAsc) : HeaderDictR :=
  ⟨g.ncols, g.nrows, g.xllcorner, g.yllcorner, g.cellsize, g.NODATA_value⟩

/-! ### The succession step (`casimir`)

The Python loop is

```
ret_veg_map = copy.deepcopy(vegetation_map)
for idx in range(len(shear_map.data)):
    veg_val = int(vegetation_map.data[idx])
    if veg_val != 0:
        is_not_nodata = (shear_map.data[idx] != shear_map.NODATA_value
                         and vegetation_map.data[idx] != vegetation_map.NODATA_value)
        veg_needs_reset = (is_not_nodata and
                           shear_map.data[idx] > shear_resistance_dict[veg_val])
        if veg_needs_reset:
            ret_veg_map.data[idx] = zone_map.data[idx]
        if is_not_nodata:
            ret_veg_map.data[idx] += 1
return ret_veg_map
```

modelled as a fold over `List.range shear_map.data.length` threading the
mutable copy of the data sequence.  The resistance-dict lookup
`shear_resistance_dict[veg_val]` is reached only when `is_not_nodata` holds
(Python's `and` short-circuits) and its failure (KeyError) aborts the run:
`none`.  Out-of-range reads (`IndexError`) abort likewise. -/

def casimirStep (V Z S : ESRIAsc) (R : ℤ → Option ℚ) (acc : List ℚ) (idx : Nat) :
    Option (List ℚ) :=
  (V.data[idx]?).bind fun v =>
    if pyInt v ≠ 0 then
      (S.data[idx]?).bind fun s =>
        if s ≠ S.NODATA_value.toRat ∧ v ≠ V.NODATA_value.toRat then
          (R (pyInt v)).bind fun r =>
            if r < s then
              (Z.data[idx]?).bind fun z =>
                let acc1 := acc.set idx z
                some (acc1.set idx (acc1.getD idx 0 + 1))
            else some (acc.set idx (acc.getD idx 0 + 1))
        else some acc
    else some acc

/-- The `casimir` succession model (in-memory variant: the `str` arguments of
the Python function are coerced to `ESRIAsc` by the file reader, modelled
separately by `ESRIAsc.decode`; the Excel source is modelled by the lookup
function `R` it produces). -/
def casimir (V Z S : ESRIAsc) (R : ℤ → Option ℚ) : Option ESRIAsc :=
  ((List.range S.data.length).foldlM (casimirStep V Z S R) V.data).map
    (fun d => { V with data := d })

/-- The value the succession pass leaves at index `i` (when it processes `i`),
as a function of the per-cell inputs only; `none` = the run aborts at that
cell (missing resistance code at a valid cell, or out-of-range read). -/
def cellNew (V Z S : ESRIAsc) (R : ℤ → Option ℚ) (i : Nat) : Option ℚ :=
  match V.data[i]?, S.data[i]? with
  | some v, some s =>
    if pyInt v ≠ 0 then
      if s ≠ S.NODATA_value.toRat ∧ v ≠ V.NODATA_value.toRat then
        match R (pyInt v) with
        | none => none
        | some r =>
          if r < s then
            match Z.data[i]? with
            | none => none
            | some z => some (z + 1)
          else some (v + 1)
      else some v
    else some v
  | _, _ => none

theorem cellNew_eq {V Z S : ESRIAsc} {R : ℤ → Option ℚ} {i : Nat} {v s : ℚ}
    (hv : V.data[i]? = some v) (hs : S.data[i]? = some s) :
    cellNew V Z S R i =
      (if pyInt v ≠ 0 then
        if s ≠ S.NODATA_value.toRat ∧ v ≠ V.NODATA_value.toRat then
          match R (pyInt v) with
          | none => none
          | some r =>
            if r < s then
              match Z.data[i]? with
              | none => none
              | some z => some (z + 1)
            else some (v + 1)
        else some v
      else some v) := by
  unfold cellNew
  rw [hv, hs]

theorem casimirStep_some {V Z S : ESRIAsc} {R : ℤ → Option ℚ} {acc : List ℚ}
    {idx : Nat} {acc' : List ℚ}
    (h : casimirStep V Z S R acc idx = some acc')
    (hacc : acc[idx]? = V.data[idx]?)
    (hS : idx < S.data.length) :
    acc'.length = acc.length ∧ (∀ j, j ≠ idx → acc'[j]? = acc[j]?) ∧
      ∃ q, cellNew V Z S R idx = some q ∧ acc'[idx]? = some q := by
  have hs : S.data[idx]? = some S.data[idx] := List.getElem?_eq_getElem hS
  set s := S.data[idx] with hsdef
  unfold casimirStep at h
  rw [Option.bind_eq_some] at h
  obtain ⟨v, hv, h⟩ := h
  have hidxacc : idx < acc.length := by
    have := hacc.trans hv
    exact (List.getElem?_eq_some.mp this).1
  have haccv : acc[idx]? = some v := hacc.trans hv
  rw [cellNew_eq hv hs]
  by_cases hveg : pyInt v ≠ 0
  · rw [if_pos hveg] at h ⊢
    rw [hs, Option.some_bind] at h
    by_cases hvalid : s ≠ S.NODATA_value.toRat ∧ v ≠ V.NODATA_value.toRat
    · rw [if_pos hvalid] at h ⊢
      rw [Option.bind_eq_some] at h
      obtain ⟨r, hr, h⟩ := h
      rw [hr]
      dsimp only
      by_cases hlt : r < s
      · rw [if_pos hlt] at h ⊢
        rw [Option.bind_eq_some] at h
        obtain ⟨z, hz, h⟩ := h
        rw [hz]
        obtain rfl := (Option.some.injEq _ _).mp h.symm
        have hset : (acc.set idx z).getD idx 0 = z := by
          rw [List.getD_eq_getElem?_getD, List.getElem?_set_self (by simpa using hidxacc)]
          rfl
        refine ⟨by simp, fun j hj => by simp [List.getElem?_set_ne (Ne.symm hj)], z + 1, rfl, ?_⟩
        rw [hset, List.set_set, List.getElem?_set_self (by simpa using hidxacc)]
      · rw [if_neg hlt] at h ⊢
        obtain rfl := (Option.some.injEq _ _).mp h.symm
        have hget : acc.getD idx 0 = v := by
          rw [List.getD_eq_getElem?_getD, haccv]; rfl
        refine ⟨by simp, fun j hj => by simp [List.getElem?_set_ne (Ne.symm hj)], v + 1, rfl, ?_⟩
        rw [hget, List.getElem?_set_self (by simpa using hidxacc)]
    · rw [if_neg hvalid] at h ⊢
      obtain rfl := (Option.some.injEq _ _).mp h.symm
      exact ⟨rfl, fun _ _ => rfl, v, rfl, haccv⟩
  · rw [if_neg hveg] at h ⊢
    obtain rfl := (Option.some.injEq _ _).mp h.symm
    exact ⟨rfl, fun _ _ => rfl, v, rfl, haccv⟩

theorem casimirFold {V Z S : ESRIAsc} {R : ℤ → Option ℚ} :
    ∀ (n : Nat) (out : List ℚ),
      (List.range n).foldlM (casimirStep V Z S R) V.data = some out →
      n ≤ S.data.length →
      out.length = V.data.length ∧ (∀ j, n ≤ j → out[j]? = V.data[j]?) ∧
        (∀ j, j < n → ∃ q, cellNew V Z S R j = some q ∧ out[j]? = some q) := by
  intro n
  induction n with
  | zero =>
    intro out h _
    simp only [List.range_zero, List.foldlM_nil] at h
    obtain rfl := (Option.some.injEq _ _).mp h.symm
    exact ⟨rfl, fun _ _ => rfl, fun j hj => absurd hj (Nat.not_lt_zero j)⟩
  | succ n ih =>
    intro out h hn
    rw [List.range_succ, List.foldlM_append] at h
    simp only [List.foldlM_cons, List.foldlM_nil, bind, Option.bind_eq_some] at h
    obtain ⟨mid, hmid, hstep⟩ := h
    obtain ⟨out', hout', hpure⟩ := hstep
    obtain rfl : out' = out := by simpa using hpure
    obtain ⟨hlen, hup, hlow⟩ := ih mid hmid (Nat.le_of_succ_le hn)
    obtain ⟨hlen', hother, q, hq, hqi⟩ :=
      casimirStep_some hout' (hup n le_rfl) (Nat.lt_of_succ_le hn)
    refine ⟨hlen'.trans hlen, ?_, ?_⟩
    · intro j hj
      rw [hother j (by omega), hup j (by omega)]
    · intro j hj
      rcases Nat.lt_succ_iff_lt_or_eq.mp hj with hj' | rfl
      · obtain ⟨q', hq', hq'i⟩ := hlow j hj'
        exact ⟨q', hq', (hother j (by omega)).trans hq'i⟩
      · exact ⟨q, hq, hqi⟩

/-- Characterization of a successful `casimir` run: header fields are copied
from the vegetation map, cells at indices beyond the shear data are untouched,
and each processed cell holds the value `cellNew` dictates. -/
theorem casimir_some {V Z S : ESRIAsc} {R : ℤ → Option ℚ} {W : ESRIAsc}
    (h : casimir V Z S R = some W) :
    W.ncols = V.ncols ∧ W.nrows = V.nrows ∧ W.xllcorner = V.xllcorner ∧
    W.yllcorner = V.yllcorner ∧ W.cellsize = V.cellsize ∧
    W.NODATA_value = V.NODATA_value ∧
    W.data.length = V.data.length ∧
    (∀ j, S.data.length ≤ j → W.data[j]? = V.data[j]?) ∧
    (∀ j, j < S.data.length → ∃ q, cellNew V Z S R j = some q ∧
      W.data[j]? = some q) := by
  unfold casimir at h
  rw [Option.map_eq_some'] at h
  obtain ⟨d, hd, rfl⟩ := h
  obtain ⟨hlen, hup, hlow⟩ := casimirFold S.data.length d hd le_rfl
  exact ⟨rfl, rfl, rfl, rfl, rfl, rfl, hlen, hup, hlow⟩

/-- Per-cell input agreement makes `cellNew` agree: the value left at a cell
depends only on that cell's vegetation, zone and shear entries, the two
NODATA sentinels, and the resistance lookup. -/
theorem cellNew_congr {V Z S V2 Z2 S2 : ESRIAsc} {R : ℤ → Option ℚ} {i : Nat}
    (hv : V.data[i]? = V2.data[i]?) (hz : Z.data[i]? = Z2.data[i]?)
    (hs : S.data[i]? = S2.data[i]?)
    (hnds : S.NODATA_value.toRat = S2.NODATA_value.toRat)
    (hndv : V.NODATA_value.toRat = V2.NODATA_value.toRat) :
    cellNew V Z S R i = cellNew V2 Z2 S2 R i := by
  unfold cellNew
  rw [hv, hs, hz, hnds, hndv]

/-- Claim C1 (confirmed). Per-cell succession rule, reset-then-age: at a cell
whose vegetation code is nonzero and which is valid (neither the shear nor
the vegetation entry equals its map's NODATA sentinel), the output is
`Z.data[i] + 1` when the shear strictly exceeds the looked-up resistance
threshold (reset to the zone code, then aged by one in the same pass) and
`V.data[i] + 1` otherwise (aged without reset). -/
theorem casimir_reset_then_age (V Z S : ESRIAsc) (R : ℤ → Option ℚ) (W : ESRIAsc)
    (i : Nat) (v z s r : ℚ)
    (hrun : casimir V Z S R = some W)
    (hv : V.data[i]? = some v) (hz : Z.data[i]? = some z) (hs : S.data[i]? = some s)
    (hveg : pyInt v ≠ 0)
    (hvalid : s ≠ S.NODATA_value.toRat ∧ v ≠ V.NODATA_value.toRat)
    (hr : R (pyInt v) = some r) :
    W.data[i]? = some (if r < s then z + 1 else v + 1) := by
  have hiS : i < S.data.length := (List.getElem?_eq_some.mp hs).1
  obtain ⟨-, -, -, -, -, -, -, -, hlow⟩ := casimir_some hrun
  obtain ⟨q, hq, hqi⟩ := hlow i hiS
  rw [cellNew_eq hv hs, if_pos hveg, if_pos hvalid, hr] at hq
  dsimp only at hq
  by_cases hlt : r < s
  · rw [if_pos hlt, hz] at hq
    rw [if_pos hlt]
    obtain rfl : z + 1 = q := by injection hq
    exact hqi
  · rw [if_neg hlt] at hq
    rw [if_neg hlt]
    obtain rfl : v + 1 = q := by injection hq
    exact hqi

def VwFix : ESRIAsc :=
  ⟨.int 3, .int 1, .float 0, .float 0, .int 1, .float (-9999), [2, 0, 3]⟩
def ZwFix : ESRIAsc :=
  ⟨.int 3, .int 1, .float 0, .float 0, .int 1, .float (-9999), [5, 5, 5]⟩
def SwFix : ESRIAsc :=
  ⟨.int 3, .int 1, .float 0, .float 0, .int 1, .float (-9999), [10, 0, 1]⟩
def RwFix : ℤ → Option ℚ :=
  fun c => if c = 2 then some 5 else if c = 3 then some 2 else none
def WwFix : ESRIAsc :=
  ⟨.int 3, .int 1, .float 0, .float 0, .int 1, .float (-9999), [6, 0, 4]⟩

unseal Rat.add Rat.mul Rat.inv Rat.sub Rat.ofScientific in
/-- Claim C1 witness: the worked end-to-end fixture (vegetation `[2,0,3]`,
zones `[5,5,5]`, shear `[10,0,1]`, thresholds `{2: 5, 3: 2}`): cell 0 resets
to zone 5 and ages to 6. -/
theorem casimir_reset_then_age_witness :
    WwFix.data[0]? = some (if (5 : ℚ) < 10 then 5 + 1 else 2 + 1) :=
  casimir_reset_then_age VwFix ZwFix SwFix RwFix WwFix 0 2 5 10 5
    (by decide) (by decide) (by decide) (by decide) (by decide) (by decide)
    (by decide)

/-- Claim C4 (confirmed). NODATA propagation: a cell with nonzero vegetation
value whose shear or vegetation entry equals the respective NODATA sentinel
is left unchanged (no reset, no aging). -/
theorem casimir_nodata_propagation (V Z S : ESRIAsc) (R : ℤ → Option ℚ)
    (W : ESRIAsc) (i : Nat) (v s : ℚ)
    (hrun : casimir V Z S R = some W)
    (hv : V.data[i]? = some v) (hs : S.data[i]? = some s)
    (hnz : v ≠ 0)
    (hnod : s = S.NODATA_value.toRat ∨ v = V.NODATA_value.toRat) :
    W.data[i]? = some v := by
  have hiS : i < S.data.length := (List.getElem?_eq_some.mp hs).1
  obtain ⟨-, -, -, -, -, -, -, -, hlow⟩ := casimir_some hrun
  obtain ⟨q, hq, hqi⟩ := hlow i hiS
  rw [cellNew_eq hv hs] at hq
  by_cases hveg : pyInt v ≠ 0
  · rw [if_pos hveg, if_neg (by push_neg; intro h; rcases hnod with h' | h' <;> simp [h'] at h ⊢)] at hq
    obtain rfl : v = q := by injection hq
    exact hqi
  · rw [if_neg hveg] at hq
    obtain rfl : v = q := by injection hq
    exact hqi

unseal Rat.add Rat.mul Rat.inv Rat.sub Rat.ofScientific in
/-- Claim C4 witness: a single valid-vegetation cell whose shear entry is the
shear map's NODATA sentinel is returned unchanged even though the resistance
table is empty. -/
theorem casimir_nodata_propagation_witness :
    (⟨.int 1, .int 1, .float 0, .float 0, .int 1, .float (-9999), [2]⟩ : ESRIAsc).data[0]?
      = some 2 :=
  casimir_nodata_propagation
    ⟨.int 1, .int 1, .float 0, .float 0, .int 1, .float (-9999), [2]⟩
    ⟨.int 1, .int 1, .float 0, .float 0, .int 1, .float (-9999), [5]⟩
    ⟨.int 1, .int 1, .float 0, .float 0, .int 1, .float (-9999), [-9999]⟩
    (fun _ => none)
    ⟨.int 1, .int 1, .float 0, .float 0, .int 1, .float (-9999), [2]⟩
    0 2 (-9999)
    (by decide) (by decide) (by decide) (by decide) (by decide)

/-- Claim C5 (confirmed). Bare-ground idempotence: a cell whose vegetation
value is `0` stays `0` in the output, for every zone map, shear map and
resistance table. -/
theorem casimir_bare_ground (V Z S : ESRIAsc) (R : ℤ → Option ℚ) (W : ESRIAsc)
    (i : Nat)
    (hrun : casimir V Z S R = some W)
    (hv : V.data[i]? = some 0) :
    W.data[i]? = some 0 := by
  obtain ⟨-, -, -, -, -, -, -, hup, hlow⟩ := casimir_some hrun
  by_cases hiS : i < S.data.length
  · have hs : S.data[i]? = some S.data[i] := List.getElem?_eq_getElem hiS
    obtain ⟨q, hq, hqi⟩ := hlow i hiS
    rw [cellNew_eq hv hs, if_neg (by simp [pyInt])] at hq
    obtain rfl : (0 : ℚ) = q := by injection hq
    exact hqi
  · rw [hup i (Nat.le_of_not_lt hiS)]
    exact hv

unseal Rat.add Rat.mul Rat.inv Rat.sub Rat.ofScientific in
/-- Claim C5 witness: cell 1 of the worked fixture is bare ground and stays
`0`. -/
theorem casimir_bare_ground_witness : WwFix.data[1]? = some 0 :=
  casimir_bare_ground VwFix ZwFix SwFix RwFix WwFix 1 (by decide) (by decide)

/-- Claim C8 (confirmed). Purity and per-cell locality: two successful runs
whose inputs agree at cell `i` (same vegetation, zone and shear entries, and
the same NODATA sentinels) produce the same output at cell `i`, whatever the
rest of the grids look like.  In the model `casimir` is a function of
`(V, Z, S, R)` and builds its result from a copy of `V.data`, which is the
shallow-embedding rendering of "the input map is never mutated". -/
theorem casimir_purity (V Z S V2 Z2 S2 : ESRIAsc) (R : ℤ → Option ℚ)
    (W W2 : ESRIAsc) (i : Nat)
    (h1 : casimir V Z S R = some W) (h2 : casimir V2 Z2 S2 R = some W2)
    (hv : V.data[i]? = V2.data[i]?) (hz : Z.data[i]? = Z2.data[i]?)
    (hs : S.data[i]? = S2.data[i]?)
    (hnds : S.NODATA_value.toRat = S2.NODATA_value.toRat)
    (hndv : V.NODATA_value.toRat = V2.NODATA_value.toRat) :
    W.data[i]? = W2.data[i]? := by
  obtain ⟨-, -, -, -, -, -, -, hup1, hlow1⟩ := casimir_some h1
  obtain ⟨-, -, -, -, -, -, -, hup2, hlow2⟩ := casimir_some h2
  cases hsi : S.data[i]? with
  | none =>
    have hiS : S.data.length ≤ i := List.getElem?_eq_none_iff.mp hsi
    have hiS2 : S2.data.length ≤ i := List.getElem?_eq_none_iff.mp (hs ▸ hsi)
    rw [hup1 i hiS, hup2 i hiS2, hv]
  | some s =>
    have hiS : i < S.data.length := (List.getElem?_eq_some.mp hsi).1
    have hiS2 : i < S2.data.length := (List.getElem?_eq_some.mp (hs ▸ hsi)).1
    obtain ⟨q, hq, hqi⟩ := hlow1 i hiS
    obtain ⟨q2, hq2, hqi2⟩ := hlow2 i hiS2
    rw [hqi, hqi2]
    rw [cellNew_congr hv hz hs hnds hndv, hq2] at hq
    obtain rfl : q2 = q := by injection hq
    rfl

unseal Rat.add Rat.mul Rat.inv Rat.sub Rat.ofScientific in
/-- Claim C8 witness: two runs that agree only at cell 0 (and in their
sentinels) give the same value at cell 0, although cell 1 differs in every
input and output. -/
theorem casimir_purity_witness :
    (⟨.int 2, .int 1, .float 0, .float 0, .int 1, .float (-9999), [6, 10]⟩ : ESRIAsc).data[0]?
      = (⟨.int 2, .int 1, .float 0, .float 0, .int 1, .float (-9999), [6, 2]⟩ : ESRIAsc).data[0]? :=
  casimir_purity
    ⟨.int 2, .int 1, .float 0, .float 0, .int 1, .float (-9999), [2, 7]⟩
    ⟨.int 2, .int 1, .float 0, .float 0, .int 1, .float (-9999), [5, 9]⟩
    ⟨.int 2, .int 1, .float 0, .float 0, .int 1, .float (-9999), [10, 3]⟩
    ⟨.int 2, .int 1, .float 0, .float 0, .int 1, .float (-9999), [2, 1]⟩
    ⟨.int 2, .int 1, .float 0, .float 0, .int 1, .float (-9999), [5, 2]⟩
    ⟨.int 2, .int 1, .float 0, .float 0, .int 1, .float (-9999), [10, 4]⟩
    (fun c => if c = 2 then some 5 else if c = 7 then some 1 else
              if c = 1 then some 9 else none)
    ⟨.int 2, .int 1, .float 0, .float 0, .int 1, .float (-9999), [6, 10]⟩
    ⟨.int 2, .int 1, .float 0, .float 0, .int 1, .float (-9999), [6, 2]⟩
    0
    (by decide) (by decide) (by decide) (by decide) (by decide) (by decide)
    (by decide)

/-- Claim C10 (confirmed). The loop runs over `range(len(shear_map.data))`:
when the shear map has fewer cells than the vegetation map, every vegetation
cell at an index at or beyond `len(S.data)` is returned unchanged, whatever
its value and whatever the resistance table. -/
theorem casimir_processes_shear_length (V Z S : ESRIAsc) (R : ℤ → Option ℚ)
    (W : ESRIAsc) (i : Nat)
    (hrun : casimir V Z S R = some W)
    (hshort : S.data.length < V.data.length)
    (hi : S.data.length ≤ i) :
    W.data[i]? = V.data[i]? := by
  obtain ⟨-, -, -, -, -, -, -, hup, -⟩ := casimir_some hrun
  exact hup i hi

unseal Rat.add Rat.mul Rat.inv Rat.sub Rat.ofScientific in
/-- Claim C10 witness: a two-cell vegetation map with a one-cell shear map; the
second vegetation cell (code 7, absent from the resistance table) survives
unprocessed. -/
theorem casimir_processes_shear_length_witness :
    (⟨.int 2, .int 1, .float 0, .float 0, .int 1, .float (-9999), [6, 7]⟩ : ESRIAsc).data[1]?
      = (⟨.int 2, .int 1, .float 0, .float 0, .int 1, .float (-9999), [2, 7]⟩ : ESRIAsc).data[1]? :=
  casimir_processes_shear_length
    ⟨.int 2, .int 1, .float 0, .float 0, .int 1, .float (-9999), [2, 7]⟩
    ⟨.int 1, .int 1, .float 0, .float 0, .int 1, .float (-9999), [5]⟩
    ⟨.int 1, .int 1, .float 0, .float 0, .int 1, .float (-9999), [10]⟩
    (fun c => if c = 2 then some 5 else none)
    ⟨.int 2, .int 1, .float 0, .float 0, .int 1, .float (-9999), [6, 7]⟩
    1
    (by decide) (by decide) (by decide)

unseal Rat.add Rat.mul Rat.inv Rat.sub Rat.ofScientific in
/-- Claim C2 (code bug). The function's docstring says "Before the model is
run, we check that all the unique values from vegetation_map are present in
the shear_resistance_dict", but the code performs no such upfront check: the
resistance lookup happens lazily inside the per-cell loop, short-circuited by
the NODATA test.  Concretely, with a vegetation map holding code 2 and an
empty resistance table, the run *succeeds* when the matching shear cell is
NODATA (the missing code is never detected), and aborts with a per-cell
lookup failure (KeyError) when the shear cell is valid — there is no single
pre-pass ValidationError in either case. -/
theorem casimir_no_upfront_validation :
    casimir
        ⟨.int 1, .int 1, .float 0, .float 0, .int 1, .float (-9999), [2]⟩
        ⟨.int 1, .int 1, .float 0, .float 0, .int 1, .float (-9999), [5]⟩
        ⟨.int 1, .int 1, .float 0, .float 0, .int 1, .float (-9999), [-9999]⟩
        (fun _ => none)
      = some ⟨.int 1, .int 1, .float 0, .float 0, .int 1, .float (-9999), [2]⟩
    ∧ casimir
        ⟨.int 1, .int 1, .float 0, .float 0, .int 1, .float (-9999), [2]⟩
        ⟨.int 1, .int 1, .float 0, .float 0, .int 1, .float (-9999), [5]⟩
        ⟨.int 1, .int 1, .float 0, .float 0, .int 1, .float (-9999), [1]⟩
        (fun _ => none)
      = none := by
  decide

/-! ### The regridder (`shear_mesh_to_asc`)

The function builds target coordinates `x_j = xllcorner + j*cellsize`
(`j < ncols`) and `y_k = yllcorner + k*cellsize` (`k < nrows`), evaluates the
scipy `griddata` linear interpolant of the mesh samples on the
`meshgrid(x, y)` cross product (an `nrows × ncols` matrix whose row `k`,
column `j` entry belongs to the point `(x_j, y_k)`), applies `flipud`,
flattens row-major, and replaces every NaN — produced exactly at target
points outside the convex hull of the mesh samples — by
`int(header_dict['NODATA_value'])`.  The interpolant (library code, together
with the netCDF `mesh_x`/`mesh_y`/`taus[-1]` extraction feeding it) is
abstracted as `interp`, with `none` for NaN; everything after the `griddata`
call is modelled concretely.  `range` of a Python int is empty for negative
arguments (`Int.toNat`); a non-integer dimension faults (`none`). -/

def shear_mesh_to_asc (interp : ℚ → ℚ → Option ℚ) (h : HeaderDictR) :
    Option ESRIAsc :=
  match h.ncols, h.nrows with
  | .int nc, .int nr =>
    let x := (List.range nc.toNat).map
      (fun (j : ℕ) => h.xllcorner.toRat + (j : ℚ) * h.cellsize.toRat)
    let y := (List.range nr.toNat).map
      (fun (k : ℕ) => h.yllcorner.toRat + (k : ℚ) * h.cellsize.toRat)
    let asc_mat := y.map (fun yk => x.map (fun xj => interp xj yk))
    let flipped := asc_mat.reverse
    let data := flipped.flatten.map (fun o =>
      match o with
      | some v => v
      | none => ((h.NODATA_value.pyIntVal : ℤ) : ℚ))
    some { ncols := h.ncols, nrows := h.nrows, xllcorner := h.xllcorner,
           yllcorner := h.yllcorner, cellsize := h.cellsize,
           NODATA_value := h.NODATA_value, data := data }
  | _, _ => none

theorem flatten_getElem_rows {α : Type} (w : Nat) :
    ∀ (rows : List (List α)) (i c : Nat), (∀ r ∈ rows, r.length = w) → c < w →
      rows.flatten[i * w + c]? = rows[i]?.bind (fun r => r[c]?) := by
  intro rows
  induction rows with
  | nil => intro i c _ _; simp
  | cons r rest ih =>
    intro i c hw hc
    have hr : r.length = w := hw r (List.mem_cons_self r rest)
    cases i with
    | zero =>
      rw [List.flatten_cons, Nat.zero_mul, Nat.zero_add,
        List.getElem?_append_left (by omega)]
      simp
    | succ i =>
      have hidx : (i + 1) * w + c = r.length + (i * w + c) := by
        rw [hr]; ring
      rw [List.flatten_cons, hidx, List.getElem?_append_right (by omega)]
      have : r.length + (i * w + c) - r.length = i * w + c := by omega
      rw [this, ih i c (fun r' hr' => hw r' (List.mem_cons_of_mem r hr')) hc]
      simp

/-- Truncation is the identity on integer-valued rationals. -/
theorem pyInt_intCast (z : ℤ) : pyInt ((z : ℤ) : ℚ) = z := by
  rw [pyInt, Rat.num_intCast, Rat.den_intCast]
  exact Int.tdiv_one z

/-- `int(x)` of a `PyNum` whose numeric value is the integer `z` is `z`. -/
theorem PyNum.pyIntVal_of_integral {p : PyNum} {z : ℤ} (h : p.toRat = (z : ℚ)) :
    p.pyIntVal = z := by
  cases p with
  | int w =>
    have hw : ((w : ℤ) : ℚ) = ((z : ℤ) : ℚ) := h
    have : w = z := by exact_mod_cast hw
    simpa [PyNum.pyIntVal] using this
  | float q =>
    have hq : q = ((z : ℤ) : ℚ) := h
    subst hq
    simpa [PyNum.pyIntVal] using pyInt_intCast z

unseal Rat.add Rat.mul Rat.inv Rat.sub Rat.ofScientific in
/-- Claim C7 counterexample: the NaN-substitution step stores
`int(header_dict['NODATA_value'])`, truncating the sentinel.  With
`NODATA_value = -9999.5` and an interpolant that is undefined everywhere
(every target point misses the convex hull), the single output cell holds
`-9999`, which is *not* the header's `NODATA_value`. -/
theorem shear_mesh_convex_hull_miss_counterexample :
    shear_mesh_to_asc (fun _ _ => none)
        ⟨.int 1, .int 1, .float 0, .float 0, .int 1, .float (-9999.5)⟩
      = some ⟨.int 1, .int 1, .float 0, .float 0, .int 1, .float (-9999.5),
             [(-9999 : ℚ)]⟩
    ∧ ((-9999 : ℚ) ≠
        (⟨.int 1, .int 1, .float 0, .float 0, .int 1,
          .float (-9999.5)⟩ : HeaderDictR).NODATA_value.toRat) := by
  decide

/-- Claim C7 (amended): a target grid point `(x_j, y_k)` outside the convex
hull of the mesh samples yields `float(int(NODATA_value))` at output cell
`(nrows - 1 - k) * ncols + j` (the vertical flip sends matrix row `k` to
output row `nrows - 1 - k`); this equals the header's `NODATA_value` exactly
when that sentinel has an integral value (which the truncating `int(...)` of
the source otherwise destroys). -/
theorem shear_mesh_convex_hull_miss (interp : ℚ → ℚ → Option ℚ)
    (h : HeaderDictR) (nc nr : ℤ) (hnc : h.ncols = .int nc)
    (hnr : h.nrows = .int nr) (j k : Nat) (hj : j < nc.toNat)
    (hk : k < nr.toNat)
    (hmiss : interp (h.xllcorner.toRat + (j : ℚ) * h.cellsize.toRat)
                    (h.yllcorner.toRat + (k : ℚ) * h.cellsize.toRat) = none)
    (z : ℤ) (hint : h.NODATA_value.toRat = (z : ℚ))
    (G : ESRIAsc) (hG : shear_mesh_to_asc interp h = some G) :
    G.data[(nr.toNat - 1 - k) * nc.toNat + j]? = some h.NODATA_value.toRat := by
  unfold shear_mesh_to_asc at hG
  rw [hnc, hnr] at hG
  dsimp only at hG
  obtain rfl : G = _ := by injection hG.symm
  dsimp only
  set x := (List.range nc.toNat).map
    (fun (j : ℕ) => h.xllcorner.toRat + (j : ℚ) * h.cellsize.toRat) with hx
  set y := (List.range nr.toNat).map
    (fun (k : ℕ) => h.yllcorner.toRat + (k : ℚ) * h.cellsize.toRat) with hy
  set asc_mat := y.map (fun yk => x.map (fun xj => interp xj yk)) with hmat
  have hxlen : x.length = nc.toNat := by simp [hx]
  have hylen : y.length = nr.toNat := by simp [hy]
  have hmatlen : asc_mat.length = nr.toNat := by simp [hmat, hylen]
  have hrows : ∀ r ∈ asc_mat.reverse, r.length = nc.toNat := by
    intro r hr
    rw [List.mem_reverse] at hr
    obtain ⟨yk, -, rfl⟩ := List.mem_map.mp hr
    simpa using hxlen
  rw [List.getElem?_map,
    flatten_getElem_rows nc.toNat asc_mat.reverse (nr.toNat - 1 - k) j hrows hj]
  have hlenrev : nr.toNat - 1 - k < asc_mat.reverse.length := by
    simp [hmatlen]; omega
  rw [List.getElem?_reverse (by simpa [hmatlen] using hlenrev)]
  have hkidx : asc_mat.length - 1 - (nr.toNat - 1 - k) = k := by
    rw [hmatlen]; omega
  rw [hkidx, hmat, List.getElem?_map, hy, List.getElem?_map,
    List.getElem?_range hk]
  simp only [hx, Option.map_some', Option.some_bind, List.getElem?_map,
    List.getElem?_range hj]
  rw [hmiss]
  dsimp only
  rw [PyNum.pyIntVal_of_integral hint, hint]

unseal Rat.add Rat.mul Rat.inv Rat.sub Rat.ofScientific in
/-- Claim C7 witness: with an integral sentinel (`-9999`), an everywhere-miss
interpolant on a 1×1 grid produces exactly the sentinel in the (flipped,
flattened) output cell. -/
theorem shear_mesh_convex_hull_miss_witness :
    (⟨.int 1, .int 1, .float 0, .float 0, .int 1, .float (-9999),
      [(-9999 : ℚ)]⟩ : ESRIAsc).data[((1 : ℤ).toNat - 1 - 0) * (1 : ℤ).toNat + 0]?
      = some (⟨.int 1, .int 1, .float 0, .float 0, .int 1,
              .float (-9999)⟩ : HeaderDictR).NODATA_value.toRat :=
  shear_mesh_convex_hull_miss (fun _ _ => none)
    ⟨.int 1, .int 1, .float 0, .float 0, .int 1, .float (-9999)⟩
    1 1 (by decide) (by decide) 0 0 (by decide) (by decide) (by decide)
    (-9999) (by decide)
    ⟨.int 1, .int 1, .float 0, .float 0, .int 1, .float (-9999), [(-9999 : ℚ)]⟩
    (by decide)

/-! ### The orchestrator (`casimir_with_dflow_io`) -/

/-- A Grid-typed argument of the orchestrator: either an already-parsed
in-memory `ESRIAsc` or a path string on disk. -/
inductive GridArg where
  | grid (g : ESRIAsc)
  | path (p : String)
deriving DecidableEq

inductive RunError where
  | typeError (msg : String)
  | dimError
  | cellError
deriving DecidableEq

/-- `casimir_with_dflow_io(vegetation_map, zone_map, shear_nc_path,
casimir_required_data)`.  The netCDF shear source and the Excel table are
abstracted as `interp` (the interpolant `shear_mesh_to_asc` consumes) and `R`
(the resistance lookup), as elsewhere in this development.  The source opens
with two `isinstance(..., ESRIAsc)` checks that raise `TypeError` for
*anything* that is not an in-memory `ESRIAsc` — including the on-disk path
strings its own docstring advertises; both checks name `vegetation_map` in
their message, as in the source.  Otherwise it regrids the shear mesh onto
the vegetation map's `header_dict()` target and hands everything to
`casimir`. -/
def casimir_with_dflow_io (vegetation_map zone_map : GridArg)
    (interp : ℚ → ℚ → Option ℚ) (R : ℤ → Option ℚ) : Except RunError ESRIAsc :=
  match vegetation_map with
  | .path _ => .error (.typeError "vegetation_map must be an ESRIAsc instance")
  | .grid V =>
    match zone_map with
    | .path _ => .error (.typeError "vegetation_map must be an ESRIAsc instance")
    | .grid Z =>
      match shear_mesh_to_asc interp V.header_dict with
      | none => .error .dimError
      | some shear_map =>
        match casimir V Z shear_map R with
        | none => .error .cellError
        | some W => .ok W

/-- Claim C9 (code bug).  The docstring types `vegetation_map`/`zone_map` as
"location on disk or ESRIAsc representation", but the code raises `TypeError`
for every argument that is not an in-memory `ESRIAsc` — in particular for a
valid path string, which the claim says must be accepted.  Here the
orchestrator rejects the path `data/vegclass_2z.asc` (the repository's own
default vegetation map path) outright. -/
theorem casimir_with_dflow_io_rejects_path :
    casimir_with_dflow_io (.path "data/vegclass_2z.asc")
        (.grid ⟨.int 1, .int 1, .float 0, .float 0, .int 1, .float (-9999), [5]⟩)
        (fun _ _ => none) (fun _ => none)
      = .error (.typeError "vegetation_map must be an ESRIAsc instance") := rfl

/-! ### The raster text codec (`ESRIAsc.__init__` from a file, `ESRIAsc.write`)

Text is handled at the `List Char` level with explicit models of the Python
primitives used by the source: `str.split()` (split on whitespace runs,
dropping empty tokens), `str.strip()`, splitting a file into lines, and
`'sep'.join`.  Number formatting follows Python's `str()` for `int` and
`float`: for a float, the shortest decimal digit string (at least one digit
after the point), which on the exactly-representable decimal values handled
by this codec agrees with CPython's repr.  Number parsing models `int(...)`
and `float(...)` on plain decimal literals (the only forms the codec emits
and its data files contain); numpy's `fromstring(..., sep=' ')` is modelled
as whitespace tokenization plus per-token `float` parsing, a malformed token
giving `dataError`. -/

def isWS (c : Char) : Bool :=
  c = ' ' || c = '\t' || c = '\n' || c = '\r' || c = '\x0b' || c = '\x0c'

def splitOnChar (sep : Char) : List Char → List (List Char)
  | [] => [[]]
  | c :: t =>
    let r := splitOnChar sep t
    if c = sep then [] :: r
    else
      match r with
      | [] => [[c]]
      | h :: r' => (c :: h) :: r'

def splitWSGo : List Char → List Char → List (List Char)
  | [], cur => if cur = [] then [] else [cur.reverse]
  | c :: t, cur =>
    if isWS c then
      if cur = [] then splitWSGo t [] else cur.reverse :: splitWSGo t []
    else splitWSGo t (c :: cur)

/-- Python `str.split()` with no argument: split on whitespace runs, no empty
tokens. -/
def pySplit (l : List Char) : List (List Char) := splitWSGo l []

/-- Python `str.strip()`. -/
def trimL (l : List Char) : List Char :=
  ((l.dropWhile isWS).reverse.dropWhile isWS).reverse

/-- Python `sep.join(parts)` for a one-character separator. -/
def joinChar (sep : Char) : List (List Char) → List Char
  | [] => []
  | [t] => t
  | t :: ts => t ++ sep :: joinChar sep ts

def digitChar (d : Nat) : Char := Char.ofNat (48 + d)

def charVal (c : Char) : Nat := c.toNat - 48

def isDigitChar (c : Char) : Bool := '0' ≤ c && c ≤ '9'

def digitsAux : Nat → Nat → List Nat
  | 0, _ => []
  | fuel + 1, n => if n = 0 then [] else n % 10 :: digitsAux fuel (n / 10)

/-- Little-endian base-10 digits of `n` (empty for `0`). -/
def decDigits (n : Nat) : List Nat := digitsAux n n

/-- Most-significant-first digit characters of `n` (empty for `0`). -/
def natDigitsBE (n : Nat) : List Char := ((decDigits n).map digitChar).reverse

/-- Decimal notation of a natural number, as Python prints it. -/
def natToDigitChars (n : Nat) : List Char :=
  if n = 0 then ['0'] else natDigitsBE n

/-- Value of a most-significant-first digit-character string. -/
def digitsVal (l : List Char) : Nat := l.foldl (fun a c => 10 * a + charVal c) 0

def takeDigits : List Char → List Char × List Char
  | [] => ([], [])
  | c :: t =>
    if isDigitChar c then
      let p := takeDigits t
      (c :: p.1, p.2)
    else ([], c :: t)

/-- Python `float(tok)` on an unsigned decimal literal: digits, optionally a
point with digits on at least one side. -/
def parsePyFloatCore (cs : List Char) : Option ℚ :=
  let p := takeDigits cs
  match p.2 with
  | [] => if p.1 = [] then none else some ((digitsVal p.1 : ℚ))
  | c :: t =>
    if c = '.' ∧ (t.all fun ch => isDigitChar ch) ∧ (p.1 ≠ [] ∨ t ≠ []) then
      some ((digitsVal (p.1 ++ t) : ℚ) / 10 ^ t.length)
    else none

/-- Python `float(tok)` (decimal literals, optional sign). -/
def parsePyFloatL (cs : List Char) : Option ℚ :=
  match cs with
  | [] => none
  | c :: t =>
    if c = '-' then (parsePyFloatCore t).map (fun q => -q)
    else if c = '+' then parsePyFloatCore t
    else parsePyFloatCore (c :: t)

def parsePyIntCore (cs : List Char) : Option ℤ :=
  if cs ≠ [] ∧ (cs.all fun c => isDigitChar c) then some ((digitsVal cs : ℤ))
  else none

/-- Python `int(tok)` (decimal literals, optional sign). -/
def parsePyIntL (cs : List Char) : Option ℤ :=
  match cs with
  | [] => none
  | c :: t =>
    if c = '-' then (parsePyIntCore t).map (fun z => -z)
    else if c = '+' then parsePyIntCore t
    else parsePyIntCore (c :: t)

/-- Number of decimal digits needed after the point for `q` (the least `k`
with `q * 10^k` integral), found by repeated shifting; the fuel `q.den`
always suffices for decimally-representable values. -/
def decShift : Nat → ℚ → Nat
  | 0, _ => 0
  | fuel + 1, q => if q.den = 1 then 0 else decShift fuel (q * 10) + 1

/-- Python `str(z)` for an int. -/
def printPyIntL (z : ℤ) : List Char :=
  (if z < 0 then ['-'] else []) ++ natToDigitChars z.natAbs

/-- Python `str(x)` for a float: sign, integer part, point, fractional digits
(at least one, so `-9999.0` rather than `-9999`). -/
def printPyFloatL (q : ℚ) : List Char :=
  let k := decShift q.den q
  let m := (q * 10 ^ k).num
  let ds0 := natDigitsBE m.natAbs
  let ds := List.replicate (k + 1 - ds0.length) '0' ++ ds0
  let ip := ds.take (ds.length - k)
  let fp := ds.drop (ds.length - k)
  (if m < 0 then ['-'] else []) ++ ip ++ '.' :: (if fp = [] then ['0'] else fp)

/-- Python `str`/`"{}".format` of a dynamically typed header value. -/
def pyStrL : PyNum → List Char
  | .int z => printPyIntL z
  | .float q => printPyFloatL q

inductive DecodeError where
  | headerError
  | dataError
  | formatError
deriving DecidableEq

/-- `getnextval(f)` for header line `i`:
`f.readline().strip().split()[1]` (missing second token = `IndexError`). -/
def headerTokAt (lines : List (List Char)) (i : Nat) : Option (List Char) :=
  (pySplit (trimL (lines.getD i [])))[1]?

/-- The six header reads of `ESRIAsc.__init__`, in source order and with the
source's types: `int, int, float, float, int, float`. -/
def decodeHeader6 (lines : List (List Char)) :
    Option (ℤ × ℤ × ℚ × ℚ × ℤ × ℚ) :=
  (headerTokAt lines 0).bind fun t0 =>
  (headerTokAt lines 1).bind fun t1 =>
  (headerTokAt lines 2).bind fun t2 =>
  (headerTokAt lines 3).bind fun t3 =>
  (headerTokAt lines 4).bind fun t4 =>
  (headerTokAt lines 5).bind fun t5 =>
  (parsePyIntL t0).bind fun nc =>
  (parsePyIntL t1).bind fun nr =>
  (parsePyFloatL t2).bind fun xl =>
  (parsePyFloatL t3).bind fun yl =>
  (parsePyIntL t4).bind fun cz =>
  (parsePyFloatL t5).bind fun nd =>
  some (nc, nr, xl, yl, cz, nd)

/-- `' '.join([l.strip() for l in f.readlines()])` split into whitespace
tokens (the tokenization underlying `fromstring(..., sep=' ')`). -/
def dataTokens (lines : List (List Char)) : List (List Char) :=
  pySplit (joinChar ' ' ((lines.drop 6).map trimL))

/-- `ESRIAsc.__init__` with a `file_path`: read the six header values, parse
all remaining whitespace-separated tokens as floats regardless of line
breaks, and assert `len(data) == nrows * ncols` (`formatError` — the
AssertionError the spec names FormatError). -/
def decodeCore (cs : List Char) : Except DecodeError ESRIAsc :=
  let lines := splitOnChar '\n' cs
  match decodeHeader6 lines with
  | none => .error .headerError
  | some (nc, nr, xl, yl, cz, nd) =>
    match (dataTokens lines).mapM parsePyFloatL with
    | none => .error .dataError
    | some ds =>
      if (ds.length : ℤ) = nr * nc then
        .ok ⟨.int nc, .int nr, .float xl, .float yl, .int cz, .float nd, ds⟩
      else .error .formatError

def ESRIAsc.decode (s : String) : Except DecodeError ESRIAsc := decodeCore s.data

/-- Dimension of a numpy `reshape`: a nonnegative Python int (anything else
faults). -/
def pyDim : PyNum → Option Nat
  | .int z => if 0 ≤ z then some z.toNat else none
  | .float _ => none

/-- `reshape(data, (nrows, ncols))` row-major: `r` rows of `c` entries. -/
def chunkRows (c : Nat) : Nat → List ℚ → List (List ℚ)
  | 0, _ => []
  | r + 1, l => l.take c :: chunkRows c r (l.drop c)

/-- `' '.join([str(v) for v in row])`. -/
def rowChars (row : List ℚ) : List Char := joinChar ' ' (row.map printPyFloatL)

/-- The six header lines `ESRIAsc.write` emits. -/
def canonicalHeader (g : ESRIAsc) : List (List Char) :=
  ["ncols".data ++ ' ' :: pyStrL g.ncols,
   "nrows".data ++ ' ' :: pyStrL g.nrows,
   "xllcorner".data ++ ' ' :: pyStrL g.xllcorner,
   "yllcorner".data ++ ' ' :: pyStrL g.yllcorner,
   "cellsize".data ++ ' ' :: pyStrL g.cellsize,
   "NODATA_value".data ++ ' ' :: pyStrL g.NODATA_value]

/-- `ESRIAsc.write`: six header lines each ending in a newline, then the
rows of `as_matrix()` joined by newlines.  (`fillna` is the identity here:
the rational model has no NaN, and the round-trip claim is stated for inputs
without undefined values.)  The `as_matrix` reshape faults unless the grid
dimensions are nonnegative ints whose product is the data length. -/
def writeL (g : ESRIAsc) : Option (List Char) :=
  match pyDim g.nrows, pyDim g.ncols with
  | some r, some c =>
    if g.data.length = r * c then
      some (joinChar '\n'
        (canonicalHeader g ++ (chunkRows c r g.data).map rowChars))
    else none
  | _, _ => none

def ESRIAsc.write (g : ESRIAsc) : Option String := (writeL g).map String.mk

/-- The first six lines of a text, for header byte-comparisons. -/
def headerLinesOf (cs : List Char) : List (List Char) :=
  (splitOnChar '\n' cs).take 6

deriving instance DecidableEq for Except

/-! ### Digit-string arithmetic -/

theorem charVal_digitChar {d : Nat} (h : d < 10) : charVal (digitChar d) = d := by
  interval_cases d <;> decide

theorem isDigitChar_digitChar {d : Nat} (h : d < 10) :
    isDigitChar (digitChar d) = true := by
  interval_cases d <;> decide

theorem digitsAux_lt10 : ∀ fuel n, ∀ d ∈ digitsAux fuel n, d < 10 := by
  intro fuel
  induction fuel with
  | zero => intro n d hd; simp [digitsAux] at hd
  | succ fuel ih =>
    intro n d hd
    rw [digitsAux] at hd
    by_cases hn : n = 0
    · simp [hn] at hd
    · rw [if_neg hn] at hd
      rcases List.mem_cons.mp hd with rfl | hmem
      · exact Nat.mod_lt _ (by omega)
      · exact ih _ d hmem

/-- Little-endian digit value. -/
def valLE : List Nat → Nat
  | [] => 0
  | d :: t => d + 10 * valLE t

theorem valLE_digitsAux : ∀ fuel n, n ≤ fuel → valLE (digitsAux fuel n) = n := by
  intro fuel
  induction fuel with
  | zero => intro n hn; interval_cases n; rfl
  | succ fuel ih =>
    intro n hn
    rw [digitsAux]
    by_cases hn0 : n = 0
    · simp [hn0, valLE]
    · rw [if_neg hn0, valLE, ih (n / 10) (by omega)]
      omega

theorem digitsVal_foldl_shift :
    ∀ (l : List Char) (a : Nat),
      l.foldl (fun a c => 10 * a + charVal c) a = a * 10 ^ l.length + digitsVal l := by
  intro l
  induction l with
  | nil => intro a; simp [digitsVal]
  | cons c t ih =>
    intro a
    rw [List.foldl_cons, ih (10 * a + charVal c)]
    have h2 : digitsVal (c :: t) = charVal c * 10 ^ t.length + digitsVal t := by
      rw [digitsVal, List.foldl_cons]
      have h0 : 10 * 0 + charVal c = charVal c := by omega
      rw [h0, ih (charVal c)]
    rw [h2, List.length_cons]
    ring

theorem digitsVal_append (A B : List Char) :
    digitsVal (A ++ B) = digitsVal A * 10 ^ B.length + digitsVal B := by
  rw [digitsVal, List.foldl_append, digitsVal_foldl_shift]
  rfl

theorem digitsVal_rev_map (l : List Nat) (h : ∀ d ∈ l, d < 10) :
    digitsVal ((l.map digitChar).reverse) = valLE l := by
  induction l with
  | nil => rfl
  | cons d t ih =>
    rw [List.map_cons, List.reverse_cons, digitsVal_append]
    have hd : charVal (digitChar d) = d := charVal_digitChar (h d (by simp))
    have : digitsVal [digitChar d] = d := by
      simp [digitsVal, List.foldl, hd]
    rw [this, ih (fun d hd => h d (by simp [hd])), valLE]
    simp
    ring

theorem digitsVal_natDigitsBE (n : Nat) : digitsVal (natDigitsBE n) = n := by
  rw [natDigitsBE, decDigits, digitsVal_rev_map _ (digitsAux_lt10 n n)]
  exact valLE_digitsAux n n le_rfl

theorem digitsVal_replicate_zero (z : Nat) (L : List Char) :
    digitsVal (List.replicate z '0' ++ L) = digitsVal L := by
  rw [digitsVal_append]
  have : digitsVal (List.replicate z '0') = 0 := by
    induction z with
    | zero => rfl
    | succ z ih =>
      rw [List.replicate_succ, digitsVal, List.foldl_cons]
      have : (10 * 0 + charVal '0') = 0 := by decide
      rw [this]
      exact ih
  rw [this]
  simp

theorem natDigitsBE_all_digits (n : Nat) :
    ∀ c ∈ natDigitsBE n, isDigitChar c = true := by
  intro c hc
  rw [natDigitsBE, List.mem_reverse, List.mem_map] at hc
  obtain ⟨d, hd, rfl⟩ := hc
  exact isDigitChar_digitChar (digitsAux_lt10 n n d hd)

theorem natToDigitChars_all_digits (n : Nat) :
    ∀ c ∈ natToDigitChars n, isDigitChar c = true := by
  intro c hc
  rw [natToDigitChars] at hc
  by_cases hn : n = 0
  · rw [if_pos hn] at hc
    simp at hc
    subst hc
    decide
  · rw [if_neg hn] at hc
    exact natDigitsBE_all_digits n c hc

theorem natToDigitChars_ne_nil (n : Nat) : natToDigitChars n ≠ [] := by
  rw [natToDigitChars]
  by_cases hn : n = 0
  · simp [hn]
  · rw [if_neg hn, natDigitsBE]
    intro h
    have h0 : digitsAux n n = [] := by simpa using h
    have := valLE_digitsAux n n le_rfl
    rw [h0] at this
    exact hn (by simpa [valLE] using this.symm)

theorem digitsVal_natToDigitChars (n : Nat) : digitsVal (natToDigitChars n) = n := by
  rw [natToDigitChars]
  by_cases hn : n = 0
  · simp [hn]; decide
  · rw [if_neg hn]; exact digitsVal_natDigitsBE n

/-- The digit characters and their negative character-class facts. -/
theorem digitChar_facts {d : Nat} (h : d < 10) :
    isDigitChar (digitChar d) = true ∧ digitChar d ≠ '-' ∧ digitChar d ≠ '+' ∧
      digitChar d ≠ '.' ∧ isWS (digitChar d) = false ∧ digitChar d ≠ '\n' := by
  interval_cases d <;> decide

theorem mem_natDigitsBE {n : Nat} {c : Char} (hc : c ∈ natDigitsBE n) :
    ∃ d, d < 10 ∧ c = digitChar d := by
  rw [natDigitsBE, List.mem_reverse, List.mem_map] at hc
  obtain ⟨d, hd, rfl⟩ := hc
  exact ⟨d, digitsAux_lt10 n n d hd, rfl⟩

theorem mem_natToDigitChars {n : Nat} {c : Char} (hc : c ∈ natToDigitChars n) :
    ∃ d, d < 10 ∧ c = digitChar d := by
  rw [natToDigitChars] at hc
  by_cases hn : n = 0
  · rw [if_pos hn] at hc
    simp at hc
    exact ⟨0, by omega, by rw [hc]; rfl⟩
  · exact mem_natDigitsBE (by rwa [if_neg hn] at hc)

/-! ### Printing then reparsing numbers -/

theorem parsePyIntCore_natToDigitChars (n : Nat) :
    parsePyIntCore (natToDigitChars n) = some (n : ℤ) := by
  rw [parsePyIntCore, if_pos]
  · rw [digitsVal_natToDigitChars]
  · refine ⟨natToDigitChars_ne_nil n, ?_⟩
    rw [List.all_eq_true]
    exact natToDigitChars_all_digits n

theorem parsePyIntL_printPyIntL (z : ℤ) : parsePyIntL (printPyIntL z) = some z := by
  rw [printPyIntL]
  by_cases hz : z < 0
  · rw [if_pos hz, List.singleton_append]
    simp only [parsePyIntL, if_pos rfl]
    rw [parsePyIntCore_natToDigitChars, Option.map_some']
    have hna : -(z.natAbs : ℤ) = z := by omega
    rw [hna]
    simp
  · rw [if_neg hz, List.nil_append]
    obtain ⟨c, t, hct⟩ : ∃ c t, natToDigitChars z.natAbs = c :: t := by
      cases h : natToDigitChars z.natAbs with
      | nil => exact absurd h (natToDigitChars_ne_nil _)
      | cons c t => exact ⟨c, t, rfl⟩
    obtain ⟨d, hd, hcd⟩ := mem_natToDigitChars (hct ▸ List.mem_cons_self c t)
    obtain ⟨-, hminus, hplus, -, -, -⟩ := digitChar_facts hd
    rw [hct]
    simp only [parsePyIntL]
    rw [if_neg (by rw [hcd]; exact hminus), if_neg (by rw [hcd]; exact hplus),
      ← hct, parsePyIntCore_natToDigitChars]
    have hna : (z.natAbs : ℤ) = z := by omega
    rw [hna]

theorem takeDigits_append (X Y : List Char)
    (hX : ∀ c ∈ X, isDigitChar c = true)
    (hY : ∀ c, Y.head? = some c → isDigitChar c = false) :
    takeDigits (X ++ Y) = (X, Y) := by
  induction X with
  | nil =>
    rw [List.nil_append]
    cases Y with
    | nil => rfl
    | cons c t =>
      rw [takeDigits, if_neg]
      rw [hY c rfl]
      simp
  | cons x X' ih =>
    rw [List.cons_append, takeDigits,
      if_pos (by rw [hX x (List.mem_cons_self x X')]),
      ih (fun c hc => hX c (List.mem_cons_of_mem x hc))]

/-! ### Decimally representable rationals -/

/-- The values Python decimal float literals denote. -/
def DecimalRep (q : ℚ) : Prop := ∃ (n : ℤ) (k : ℕ), q = (n : ℚ) / 10 ^ k

theorem mul_pow_den_eq_one {q : ℚ} {k : ℕ} (h : q.den ∣ 10 ^ k) :
    (q * 10 ^ k).den = 1 := by
  obtain ⟨t, ht⟩ := h
  have h1 : (q.den : ℚ) ≠ 0 := Nat.cast_ne_zero.mpr q.den_ne_zero
  have hq : q * (q.den : ℚ) = (q.num : ℚ) := by
    nth_rewrite 1 [← Rat.num_div_den q]
    exact div_mul_cancel₀ _ h1
  have h2 : ((10 : ℚ) ^ k) = ((q.den * t : ℕ) : ℚ) := by
    rw [← ht]
    push_cast
    ring
  have h3 : q * ((q.den * t : ℕ) : ℚ) = ((q.num * t : ℤ) : ℚ) := by
    push_cast
    rw [← mul_assoc, hq]
  rw [h2, h3]
  exact Rat.den_intCast _

theorem decimal_den_dvd {q : ℚ} (h : DecimalRep q) : ∃ K, q.den ∣ 10 ^ K := by
  obtain ⟨n, k, rfl⟩ := h
  refine ⟨k, ?_⟩
  have h1 : ((n : ℚ) / 10 ^ k) = Rat.divInt n (10 ^ k) := by
    rw [Rat.divInt_eq_div]
    push_cast
    ring
  rw [h1]
  have h2 := Rat.den_dvd n ((10 : ℤ) ^ k)
  have h3 : ((10 : ℤ) ^ k) = ((10 ^ k : ℕ) : ℤ) := by push_cast; ring
  rw [h3] at h2
  exact_mod_cast h2

theorem exists_small_pow_dvd :
    ∀ d : ℕ, 0 < d → (∃ K, d ∣ 10 ^ K) → ∃ k, k ≤ d ∧ d ∣ 10 ^ k := by
  intro d
  induction d using Nat.strong_induction_on with
  | h d ih =>
    rintro hd ⟨K, hK⟩
    by_cases hd1 : d = 1
    · exact ⟨0, by omega, by simp [hd1]⟩
    · have hp : d.minFac.Prime := Nat.minFac_prime hd1
      have hpd : d.minFac ∣ d := Nat.minFac_dvd d
      have hp10 : d.minFac ∣ 10 := hp.dvd_of_dvd_pow (hpd.trans hK)
      have hd'dvd : d / d.minFac ∣ d := Nat.div_dvd_of_dvd hpd
      have hd'pos : 0 < d / d.minFac := Nat.div_pos (Nat.minFac_le hd) hp.pos
      have hd'lt : d / d.minFac < d := Nat.div_lt_self hd hp.one_lt
      obtain ⟨k', hk'le, hk'⟩ := ih _ hd'lt hd'pos ⟨K, hd'dvd.trans hK⟩
      refine ⟨k' + 1, by omega, ?_⟩
      have hdd : d = d.minFac * (d / d.minFac) := (Nat.mul_div_cancel' hpd).symm
      rw [hdd, pow_succ, mul_comm (10 ^ k') 10]
      exact mul_dvd_mul hp10 hk'

theorem decShift_spec :
    ∀ (fuel : Nat) (q : ℚ), (∃ k, k ≤ fuel ∧ (q * 10 ^ k).den = 1) →
      (q * 10 ^ decShift fuel q).den = 1 := by
  intro fuel
  induction fuel with
  | zero =>
    rintro q ⟨k, hk, hden⟩
    interval_cases k
    rw [decShift]
    exact hden
  | succ fuel ih =>
    rintro q ⟨k, hk, hden⟩
    rw [decShift]
    by_cases h1 : q.den = 1
    · rw [if_pos h1]
      simpa using h1
    · rw [if_neg h1]
      have hk0 : k ≠ 0 := by
        rintro rfl
        rw [pow_zero, mul_one] at hden
        exact h1 hden
      obtain ⟨k', rfl⟩ : ∃ k', k = k' + 1 := ⟨k - 1, by omega⟩
      have hre : q * 10 ^ (k' + 1) = (q * 10) * 10 ^ k' := by ring
      have hmain := ih (q * 10) ⟨k', by omega, by rw [← hre]; exact hden⟩
      have hre2 : q * 10 ^ (decShift fuel (q * 10) + 1)
          = (q * 10) * 10 ^ (decShift fuel (q * 10)) := by ring
      rw [hre2]
      exact hmain

theorem decimal_print_den {q : ℚ} (h : DecimalRep q) :
    (q * 10 ^ decShift q.den q).den = 1 := by
  obtain ⟨K0, hdvd⟩ := decimal_den_dvd h
  obtain ⟨k, hkle, hk⟩ :=
    exists_small_pow_dvd q.den (Nat.pos_of_ne_zero q.den_ne_zero) ⟨K0, hdvd⟩
  exact decShift_spec q.den q ⟨k, hkle, mul_pow_den_eq_one hk⟩

theorem parsePyFloatL_cons (c : Char) (t : List Char) :
    parsePyFloatL (c :: t) =
      if c = '-' then (parsePyFloatCore t).map (fun q => -q)
      else if c = '+' then parsePyFloatCore t
      else parsePyFloatCore (c :: t) := rfl

theorem parsePyFloatL_printPyFloatL {q : ℚ} (h : DecimalRep q) :
    parsePyFloatL (printPyFloatL q) = some q := by
  have hden : (q * 10 ^ decShift q.den q).den = 1 := decimal_print_den h
  set k := decShift q.den q with hk
  set m := (q * 10 ^ k).num with hm
  have hmq : (m : ℚ) = q * 10 ^ k := (Rat.den_eq_one_iff _).mp hden
  have hq : q = (m : ℚ) / 10 ^ k := by
    rw [eq_div_iff (by positivity)]
    exact hmq.symm
  set ds0 := natDigitsBE m.natAbs with hds0
  set ds := List.replicate (k + 1 - ds0.length) '0' ++ ds0 with hds
  set ip := ds.take (ds.length - k) with hip
  set fp := ds.drop (ds.length - k) with hfp
  have hprint : printPyFloatL q
      = (if m < 0 then ['-'] else []) ++ ip ++ '.' ::
          (if fp = [] then ['0'] else fp) := rfl
  have hdslen : k + 1 ≤ ds.length := by
    rw [hds, List.length_append, List.length_replicate]
    omega
  have hdsdig : ∀ c ∈ ds, isDigitChar c = true := by
    intro c hc
    rw [hds] at hc
    rcases List.mem_append.mp hc with hc | hc
    · rw [List.eq_of_mem_replicate hc]; decide
    · exact natDigitsBE_all_digits _ c hc
  have hdsval : digitsVal ds = m.natAbs := by
    rw [hds, digitsVal_replicate_zero, hds0, digitsVal_natDigitsBE]
  have hiplen : 1 ≤ ip.length := by
    rw [hip, List.length_take]
    omega
  have hipne : ip ≠ [] := by
    intro hnil
    rw [hnil] at hiplen
    simp at hiplen
  have hfplen : fp.length = k := by
    rw [hfp, List.length_drop]
    omega
  have hipfp : ip ++ fp = ds := List.take_append_drop _ ds
  have hipdig : ∀ c ∈ ip, isDigitChar c = true :=
    fun c hc => hdsdig c (List.mem_of_mem_take hc)
  have hfpdig : ∀ c ∈ fp, isDigitChar c = true :=
    fun c hc => hdsdig c (List.mem_of_mem_drop hc)
  have hcore : parsePyFloatCore
      (ip ++ '.' :: (if fp = [] then ['0'] else fp))
        = some ((m.natAbs : ℚ) / 10 ^ k) := by
    by_cases hfp0 : fp = []
    · have hk0 : k = 0 := by
        rw [hfp0] at hfplen
        simpa using hfplen.symm
      have hipds : ip = ds := by
        rw [hip, hk0]
        simp
      rw [if_pos hfp0, parsePyFloatCore,
        takeDigits_append ip ('.' :: ['0']) hipdig (fun c hc => by
          injection hc with hc
          rw [← hc]
          decide)]
      dsimp only
      rw [if_pos ⟨rfl, by decide, Or.inl hipne⟩]
      have hval : digitsVal (ip ++ ['0']) = m.natAbs * 10 := by
        rw [digitsVal_append, hipds, hdsval]
        have h0 : digitsVal ['0'] = 0 := by decide
        rw [h0]
        simp
      rw [hval, hk0]
      congr 1
      push_cast
      field_simp
    · rw [if_neg hfp0, parsePyFloatCore,
        takeDigits_append ip ('.' :: fp) hipdig (fun c hc => by
          injection hc with hc
          rw [← hc]
          decide)]
      dsimp only
      rw [if_pos ⟨rfl, by rw [List.all_eq_true]; exact hfpdig, Or.inl hipne⟩]
      rw [hipfp, hdsval, hfplen]
  by_cases hm0 : m < 0
  · rw [hprint, if_pos hm0]
    show parsePyFloatL ('-' :: (ip ++ '.' :: (if fp = [] then ['0'] else fp)))
        = some q
    rw [parsePyFloatL_cons, if_pos rfl, hcore, Option.map_some', hq]
    congr 1
    have hcast : ((m.natAbs : ℕ) : ℚ) = -((m : ℤ) : ℚ) := by
      have h1 : m.natAbs = (-m).toNat := by omega
      rw [h1, show (((-m).toNat : ℕ) : ℚ) = (((-m).toNat : ℤ) : ℚ) by push_cast; ring,
        Int.toNat_of_nonneg (by omega : (0 : ℤ) ≤ -m)]
      push_cast
      ring
    rw [hcast]
    ring
  · rw [hprint, if_neg hm0, List.nil_append]
    obtain ⟨c, ip', hcip⟩ : ∃ c ip', ip = c :: ip' := by
      cases hi : ip with
      | nil => exact absurd hi hipne
      | cons c ip' => exact ⟨c, ip', rfl⟩
    have hcdig : isDigitChar c = true :=
      hipdig c (by rw [hcip]; exact List.mem_cons_self c ip')
    have hcne : c ≠ '-' ∧ c ≠ '+' := by
      constructor <;> (intro hc; rw [hc] at hcdig; simp [isDigitChar] at hcdig)
    rw [hcip, List.cons_append, parsePyFloatL_cons, if_neg hcne.1,
      if_neg hcne.2, ← List.cons_append, ← hcip, hcore, hq]
    congr 1
    have hcast : ((m.natAbs : ℕ) : ℚ) = ((m : ℤ) : ℚ) := by
      have h1 : m.natAbs = m.toNat := by omega
      rw [h1, show ((m.toNat : ℕ) : ℚ) = ((m.toNat : ℤ) : ℚ) by push_cast; ring,
        Int.toNat_of_nonneg (Int.not_lt.mp hm0)]
    rw [hcast]

theorem parsePyFloatCore_decimal {cs : List Char} {q : ℚ}
    (h : parsePyFloatCore cs = some q) : DecimalRep q := by
  rw [parsePyFloatCore] at h
  split at h
  · split at h
    · simp at h
    · obtain rfl : ((digitsVal (takeDigits cs).1 : ℚ)) = q :=
        (Option.some.injEq _ _).mp h
      refine ⟨(digitsVal (takeDigits cs).1 : ℤ), 0, ?_⟩
      rw [pow_zero, div_one]
      push_cast
      ring
  · rename_i c t heq
    split at h
    · obtain rfl : ((digitsVal ((takeDigits cs).1 ++ t) : ℚ) / 10 ^ t.length) = q :=
        (Option.some.injEq _ _).mp h
      refine ⟨(digitsVal ((takeDigits cs).1 ++ t) : ℤ), t.length, ?_⟩
      push_cast
      ring
    · simp at h

theorem parsePyFloatL_decimal {cs : List Char} {q : ℚ}
    (h : parsePyFloatL cs = some q) : DecimalRep q := by
  cases cs with
  | nil => simp [parsePyFloatL] at h
  | cons c t =>
    rw [parsePyFloatL_cons] at h
    split at h
    · rw [Option.map_eq_some'] at h
      obtain ⟨q', hq', rfl⟩ := h
      obtain ⟨n, k, rfl⟩ := parsePyFloatCore_decimal hq'
      exact ⟨-n, k, by push_cast; ring⟩
    · split at h
      · exact parsePyFloatCore_decimal h
      · exact parsePyFloatCore_decimal h

theorem mapM_parse_print (ds : List ℚ) (h : ∀ q ∈ ds, DecimalRep q) :
    (ds.map printPyFloatL).mapM parsePyFloatL = some ds := by
  induction ds with
  | nil => rfl
  | cons a t ih =>
    rw [List.map_cons, List.mapM_cons,
      parsePyFloatL_printPyFloatL (h a (List.mem_cons_self a t)),
      ih (fun q hq => h q (List.mem_cons_of_mem a hq))]
    rfl

theorem mapM_some_mem {α β : Type} (f : α → Option β) :
    ∀ (l : List α) (out : List β), l.mapM f = some out →
      ∀ b ∈ out, ∃ a ∈ l, f a = some b := by
  intro l
  induction l with
  | nil =>
    intro out h b hb
    rw [List.mapM_nil] at h
    obtain rfl : ([] : List β) = out := by simpa using h
    simp at hb
  | cons a t ih =>
    intro out h b hb
    rw [List.mapM_cons] at h
    simp only [bind, Option.bind_eq_some] at h
    obtain ⟨b0, hb0, bs, hbs, hpure⟩ := h
    obtain rfl : b0 :: bs = out := by simpa using hpure
    rcases List.mem_cons.mp hb with rfl | hb'
    · exact ⟨a, List.mem_cons_self a t, hb0⟩
    · obtain ⟨a', ha', hfa⟩ := ih bs hbs b hb'
      exact ⟨a', List.mem_cons_of_mem a ha', hfa⟩

theorem mapM_some_length {α β : Type} (f : α → Option β) :
    ∀ (l : List α) (out : List β), l.mapM f = some out →
      out.length = l.length := by
  intro l
  induction l with
  | nil =>
    intro out h
    rw [List.mapM_nil] at h
    obtain rfl : ([] : List β) = out := by simpa using h
    rfl
  | cons a t ih =>
    intro out h
    rw [List.mapM_cons] at h
    simp only [bind, Option.bind_eq_some] at h
    obtain ⟨b0, hb0, bs, hbs, hpure⟩ := h
    obtain rfl : b0 :: bs = out := by simpa using hpure
    simp [ih bs hbs]

/-! ### Splitting and joining -/

theorem splitWSGo_nil (cur : List Char) :
    splitWSGo [] cur = if cur = [] then [] else [cur.reverse] := rfl

theorem splitWSGo_cons (c : Char) (t cur : List Char) :
    splitWSGo (c :: t) cur =
      if isWS c then
        (if cur = [] then splitWSGo t [] else cur.reverse :: splitWSGo t [])
      else splitWSGo t (c :: cur) := rfl

theorem splitWSGo_append_nonws (tok : List Char)
    (htok : ∀ c ∈ tok, isWS c = false) :
    ∀ (rest cur : List Char),
      splitWSGo (tok ++ rest) cur = splitWSGo rest (tok.reverse ++ cur) := by
  induction tok with
  | nil => intro rest cur; simp
  | cons c t ih =>
    intro rest cur
    rw [List.cons_append, splitWSGo_cons,
      if_neg (by rw [htok c (List.mem_cons_self c t)]; simp),
      ih (fun c hc => htok c (List.mem_cons_of_mem _ hc))]
    congr 1
    simp

theorem pySplit_single (tok : List Char) (hne : tok ≠ [])
    (h : ∀ c ∈ tok, isWS c = false) : pySplit tok = [tok] := by
  have h0 : pySplit tok = splitWSGo (tok ++ []) [] := by
    rw [List.append_nil]; rfl
  rw [h0, splitWSGo_append_nonws tok h [] [], splitWSGo_nil,
    if_neg (by simpa using hne)]
  simp

theorem pySplit_join (toks : List (List Char))
    (h : ∀ t ∈ toks, t ≠ [] ∧ ∀ c ∈ t, isWS c = false) :
    pySplit (joinChar ' ' toks) = toks := by
  induction toks with
  | nil => rfl
  | cons t ts ih =>
    cases ts with
    | nil =>
      have ht := h t (List.mem_cons_self t [])
      exact pySplit_single t ht.1 ht.2
    | cons t2 ts' =>
      have ht := h t (List.mem_cons_self t _)
      rw [show joinChar ' ' (t :: t2 :: ts') = t ++ ' ' :: joinChar ' ' (t2 :: ts')
        from rfl]
      rw [pySplit, splitWSGo_append_nonws t ht.2, splitWSGo_cons,
        if_pos (by decide), if_neg (by simpa using ht.1)]
      rw [List.append_nil, List.reverse_reverse]
      have := ih (fun u hu => h u (List.mem_cons_of_mem t hu))
      rw [pySplit] at this
      rw [this]

theorem trimL_eq_self {l : List Char}
    (h1 : ∀ c, l.head? = some c → isWS c = false)
    (h2 : ∀ c, l.getLast? = some c → isWS c = false) :
    trimL l = l := by
  have hd : l.dropWhile isWS = l := by
    cases l with
    | nil => rfl
    | cons c t => rw [List.dropWhile_cons, if_neg (by simp [h1 c rfl])]
  rw [trimL, hd]
  have hd2 : l.reverse.dropWhile isWS = l.reverse := by
    cases hr : l.reverse with
    | nil => rfl
    | cons c t =>
      have hc : l.getLast? = some c := by
        rw [← List.head?_reverse, hr]
        rfl
      rw [List.dropWhile_cons, if_neg (by simp [h2 c hc])]
  rw [hd2, List.reverse_reverse]

theorem splitOnChar_nil (sep : Char) : splitOnChar sep [] = [[]] := rfl

theorem splitOnChar_cons (sep c : Char) (t : List Char) :
    splitOnChar sep (c :: t) =
      (if c = sep then [] :: splitOnChar sep t
       else
         match splitOnChar sep t with
         | [] => [[c]]
         | h :: r' => (c :: h) :: r') := rfl

theorem splitOnChar_ne_nil (sep : Char) : ∀ l, splitOnChar sep l ≠ [] := by
  intro l
  induction l with
  | nil => simp [splitOnChar_nil]
  | cons c t ih =>
    rw [splitOnChar_cons]
    by_cases hc : c = sep
    · rw [if_pos hc]; simp
    · rw [if_neg hc]
      cases hr : splitOnChar sep t with
      | nil => exact absurd hr ih
      | cons h r' => simp

theorem splitOnChar_sepfree (sep : Char) :
    ∀ l, (∀ c ∈ l, c ≠ sep) → splitOnChar sep l = [l] := by
  intro l
  induction l with
  | nil => intro _; rfl
  | cons c t ih =>
    intro h
    rw [splitOnChar_cons, if_neg (h c (List.mem_cons_self c t)),
      ih (fun c hc => h c (List.mem_cons_of_mem _ hc))]

theorem splitOnChar_append_sep (sep : Char) :
    ∀ (a rest : List Char), (∀ c ∈ a, c ≠ sep) →
      splitOnChar sep (a ++ sep :: rest) = a :: splitOnChar sep rest := by
  intro a
  induction a with
  | nil =>
    intro rest _
    rw [List.nil_append, splitOnChar_cons, if_pos rfl]
  | cons c a' ih =>
    intro rest h
    rw [List.cons_append, splitOnChar_cons,
      if_neg (h c (List.mem_cons_self c a')),
      ih rest (fun c hc => h c (List.mem_cons_of_mem _ hc))]

theorem joinChar_cons_cons (sep : Char) (t t2 : List Char)
    (ts : List (List Char)) :
    joinChar sep (t :: t2 :: ts) = t ++ sep :: joinChar sep (t2 :: ts) := rfl

theorem splitOnChar_join (sep : Char) :
    ∀ (parts : List (List Char)), parts ≠ [] →
      (∀ p ∈ parts, ∀ c ∈ p, c ≠ sep) →
      splitOnChar sep (joinChar sep parts) = parts := by
  intro parts
  induction parts with
  | nil => intro h _; exact absurd rfl h
  | cons p ps ih =>
    intro _ h
    cases ps with
    | nil => exact splitOnChar_sepfree sep p (h p (List.mem_cons_self p []))
    | cons p2 ps' =>
      rw [joinChar_cons_cons,
        splitOnChar_append_sep sep p _ (h p (List.mem_cons_self p _)),
        ih (by simp) (fun u hu => h u (List.mem_cons_of_mem p hu))]

theorem joinChar_append (sep : Char) :
    ∀ (A B : List (List Char)), A ≠ [] → B ≠ [] →
      joinChar sep (A ++ B) = joinChar sep A ++ sep :: joinChar sep B := by
  intro A
  induction A with
  | nil => intro B h _; exact absurd rfl h
  | cons a A' ih =>
    intro B _ hB
    cases A' with
    | nil =>
      cases B with
      | nil => exact absurd rfl hB
      | cons b B' => rfl
    | cons a2 A'' =>
      rw [List.cons_append,
        show (a2 :: A'') ++ B = a2 :: (A'' ++ B) from rfl,
        joinChar_cons_cons, joinChar_cons_cons,
        show a2 :: (A'' ++ B) = (a2 :: A'') ++ B from rfl, ih B (by simp) hB]
      simp

theorem joinChar_map_join (xss : List (List (List Char)))
    (h : ∀ xs ∈ xss, xs ≠ []) :
    joinChar ' ' (xss.map (joinChar ' ')) = joinChar ' ' xss.flatten := by
  induction xss with
  | nil => rfl
  | cons xs xss' ih =>
    cases xss' with
    | nil =>
      simp only [List.map_cons, List.map_nil, List.flatten_cons,
        List.flatten_nil, List.append_nil]
      rfl
    | cons xs2 xss'' =>
      have hx : xs ≠ [] := h xs (List.mem_cons_self xs _)
      have hflat : (xs2 :: xss'').flatten ≠ [] := by
        rw [Ne, List.flatten_eq_nil_iff]
        intro hall
        exact h xs2 (List.mem_cons_of_mem xs (List.mem_cons_self xs2 _))
          (hall xs2 (List.mem_cons_self xs2 _))
      simp only [List.map_cons]
      rw [joinChar_cons_cons]
      have ih' := ih (fun u hu => h u (List.mem_cons_of_mem xs hu))
      simp only [List.map_cons] at ih'
      rw [ih',
        show (xs :: xs2 :: xss'').flatten = xs ++ (xs2 :: xss'').flatten from rfl,
        joinChar_append ' ' xs _ hx hflat]

/-! ### Characters of printed tokens -/

theorem mem_pad_digits {z n : Nat} {c : Char}
    (hc : c ∈ List.replicate z '0' ++ natDigitsBE n) :
    ∃ d, d < 10 ∧ c = digitChar d := by
  rcases List.mem_append.mp hc with hc | hc
  · exact ⟨0, by omega, by rw [List.eq_of_mem_replicate hc]; rfl⟩
  · exact mem_natDigitsBE hc

theorem printTok_char_facts {c : Char}
    (h : c = '-' ∨ c = '.' ∨ ∃ d, d < 10 ∧ c = digitChar d) :
    isWS c = false ∧ c ≠ '\n' := by
  rcases h with rfl | rfl | ⟨d, hd, rfl⟩
  · exact ⟨by decide, by decide⟩
  · exact ⟨by decide, by decide⟩
  · obtain ⟨-, -, -, -, h5, h6⟩ := digitChar_facts hd
    exact ⟨h5, h6⟩

theorem printPyFloatL_chars (q : ℚ) :
    ∀ c ∈ printPyFloatL q, c = '-' ∨ c = '.' ∨ ∃ d, d < 10 ∧ c = digitChar d := by
  intro c hc
  rw [printPyFloatL] at hc
  rcases List.mem_append.mp hc with hc | hc
  · rcases List.mem_append.mp hc with hc | hc
    · split at hc
      · left
        simpa using hc
      · simp at hc
    · exact Or.inr (Or.inr (mem_pad_digits (List.mem_of_mem_take hc)))
  · rcases List.mem_cons.mp hc with rfl | hc
    · exact Or.inr (Or.inl rfl)
    · split at hc
      · right; right
        refine ⟨0, by omega, ?_⟩
        simpa using hc
      · exact Or.inr (Or.inr (mem_pad_digits (List.mem_of_mem_drop hc)))

theorem printPyFloatL_ne_nil (q : ℚ) : printPyFloatL q ≠ [] := by
  rw [printPyFloatL]
  intro h
  rcases List.append_eq_nil.mp h with ⟨-, h2⟩
  simp at h2

theorem printPyIntL_chars (z : ℤ) :
    ∀ c ∈ printPyIntL z, c = '-' ∨ c = '.' ∨ ∃ d, d < 10 ∧ c = digitChar d := by
  intro c hc
  rw [printPyIntL] at hc
  rcases List.mem_append.mp hc with hc | hc
  · split at hc
    · left; simpa using hc
    · simp at hc
  · exact Or.inr (Or.inr (mem_natToDigitChars hc))

theorem printPyIntL_ne_nil (z : ℤ) : printPyIntL z ≠ [] := by
  rw [printPyIntL]
  intro h
  rcases List.append_eq_nil.mp h with ⟨-, h2⟩
  exact natToDigitChars_ne_nil _ h2

theorem pyStrL_chars (p : PyNum) :
    ∀ c ∈ pyStrL p, c = '-' ∨ c = '.' ∨ ∃ d, d < 10 ∧ c = digitChar d := by
  cases p with
  | int z => exact printPyIntL_chars z
  | float q => exact printPyFloatL_chars q

theorem pyStrL_ne_nil (p : PyNum) : pyStrL p ≠ [] := by
  cases p with
  | int z => exact printPyIntL_ne_nil z
  | float q => exact printPyFloatL_ne_nil q

theorem pyStrL_not_ws (p : PyNum) : ∀ c ∈ pyStrL p, isWS c = false :=
  fun c hc => (printTok_char_facts (pyStrL_chars p c hc)).1

theorem pyStrL_ne_newline (p : PyNum) : ∀ c ∈ pyStrL p, c ≠ '\n' :=
  fun c hc => (printTok_char_facts (pyStrL_chars p c hc)).2

/-! ### Rows of the written matrix -/

theorem chunkRows_flatten (c : Nat) :
    ∀ (r : Nat) (l : List ℚ), l.length = r * c →
      (chunkRows c r l).flatten = l := by
  intro r
  induction r with
  | zero =>
    intro l hl
    rw [chunkRows, List.flatten_nil]
    symm
    rw [← List.length_eq_zero]
    omega
  | succ r ih =>
    intro l hl
    have hrc : (r + 1) * c = r * c + c := by ring
    rw [chunkRows, List.flatten_cons,
      ih (l.drop c) (by rw [List.length_drop]; omega),
      List.take_append_drop]

theorem chunkRows_mem_length (c : Nat) :
    ∀ (r : Nat) (l : List ℚ), l.length = r * c →
      ∀ row ∈ chunkRows c r l, row.length = c := by
  intro r
  induction r with
  | zero =>
    intro l _ row hrow
    simp [chunkRows] at hrow
  | succ r ih =>
    intro l hl row hrow
    have hrc : (r + 1) * c = r * c + c := by ring
    rw [chunkRows] at hrow
    rcases List.mem_cons.mp hrow with rfl | hrow
    · rw [List.length_take]
      omega
    · exact ih (l.drop c) (by rw [List.length_drop]; omega) row hrow

theorem joinChar_head (sep : Char) (t : List Char) (ts : List (List Char))
    (ht : t ≠ []) : (joinChar sep (t :: ts)).head? = t.head? := by
  cases ts with
  | nil => rfl
  | cons t2 ts' =>
    rw [joinChar_cons_cons]
    cases t with
    | nil => exact absurd rfl ht
    | cons c r => rfl

theorem joinChar_ne_nil (sep : Char) (t : List Char) (ts : List (List Char))
    (ht : t ≠ []) : joinChar sep (t :: ts) ≠ [] := by
  intro h
  have := joinChar_head sep t ts ht
  rw [h] at this
  cases t with
  | nil => exact absurd rfl ht
  | cons c r => simp at this

theorem joinChar_getLast (sep : Char) :
    ∀ (ts : List (List Char)), ts ≠ [] → (∀ u ∈ ts, u ≠ []) →
      ∃ u, u ∈ ts ∧ (joinChar sep ts).getLast? = u.getLast? := by
  intro ts
  induction ts with
  | nil => intro h _; exact absurd rfl h
  | cons t ts' ih =>
    intro _ hne
    cases ts' with
    | nil => exact ⟨t, List.mem_cons_self t [], rfl⟩
    | cons t2 ts'' =>
      obtain ⟨u, hu, hju⟩ := ih (by simp)
        (fun u hu => hne u (List.mem_cons_of_mem t hu))
      refine ⟨u, List.mem_cons_of_mem t hu, ?_⟩
      rw [joinChar_cons_cons, List.getLast?_append]
      have hne2 : joinChar sep (t2 :: ts'') ≠ [] :=
        joinChar_ne_nil sep t2 ts''
          (hne t2 (List.mem_cons_of_mem t (List.mem_cons_self t2 ts'')))
      rw [show (sep :: joinChar sep (t2 :: ts'')).getLast?
          = (joinChar sep (t2 :: ts'')).getLast? from ?_, hju]
      · cases hg : (joinChar sep (t2 :: ts'')).getLast? with
        | none =>
          rw [List.getLast?_eq_none_iff] at hg
          exact absurd hg hne2
        | some x => simp [hju.symm.trans hg]
      · rw [show sep :: joinChar sep (t2 :: ts'') = [sep] ++ joinChar sep (t2 :: ts'') from rfl,
          List.getLast?_append]
        cases hg : (joinChar sep (t2 :: ts'')).getLast? with
        | none =>
          rw [List.getLast?_eq_none_iff] at hg
          exact absurd hg hne2
        | some x => simp

/-! ### Inverting a successful decode -/

theorem decodeHeader6_some {lines : List (List Char)} {nc nr : ℤ} {xl yl : ℚ}
    {cz : ℤ} {nd : ℚ}
    (h : decodeHeader6 lines = some (nc, nr, xl, yl, cz, nd)) :
    DecimalRep xl ∧ DecimalRep yl ∧ DecimalRep nd := by
  rw [decodeHeader6] at h
  simp only [Option.bind_eq_some] at h
  obtain ⟨t0, h0, t1, h1, t2, h2, t3, h3, t4, h4, t5, h5, nc', hnc, nr', hnr,
    xl', hxl, yl', hyl, cz', hcz, nd', hnd, heq⟩ := h
  obtain ⟨rfl, rfl, rfl, rfl, rfl, rfl⟩ :
      nc' = nc ∧ nr' = nr ∧ xl' = xl ∧ yl' = yl ∧ cz' = cz ∧ nd' = nd := by
    simpa [Prod.ext_iff] using heq
  exact ⟨parsePyFloatL_decimal hxl, parsePyFloatL_decimal hyl,
    parsePyFloatL_decimal hnd⟩

theorem decodeCore_ok {cs : List Char} {g : ESRIAsc} (h : decodeCore cs = .ok g) :
    ∃ (nc nr : ℤ) (xl yl : ℚ) (cz : ℤ) (nd : ℚ),
      decodeHeader6 (splitOnChar '\n' cs) = some (nc, nr, xl, yl, cz, nd) ∧
      g = ⟨.int nc, .int nr, .float xl, .float yl, .int cz, .float nd, g.data⟩ ∧
      (∀ q ∈ g.data, DecimalRep q) ∧ ((g.data.length : ℤ) = nr * nc) := by
  rw [decodeCore] at h
  split at h
  · simp at h
  · rename_i nc0 nr0 xl0 yl0 cz0 nd0 heq
    split at h
    · simp at h
    · rename_i ds hds
      split at h
      · rename_i hlen
        have hg : ESRIAsc.mk (.int nc0) (.int nr0) (.float xl0) (.float yl0)
            (.int cz0) (.float nd0) ds = g := by
          injection h
        refine ⟨nc0, nr0, xl0, yl0, cz0, nd0, heq, ?_, ?_, ?_⟩
        · rw [← hg]
        · intro q hq
          rw [← hg] at hq
          obtain ⟨t, -, ht⟩ := mapM_some_mem parsePyFloatL _ ds hds q hq
          exact parsePyFloatL_decimal ht
        · rw [← hg]
          exact hlen
      · simp at h

/-! ### Re-decoding what `write` produced -/

theorem mem_of_head?_eq_some {l : List Char} {c : Char} (h : l.head? = some c) :
    c ∈ l := by
  cases l with
  | nil => simp at h
  | cons a t =>
    injection h with h
    exact h ▸ List.mem_cons_self a t

theorem mem_joinChar {sep c : Char} :
    ∀ {parts : List (List Char)}, c ∈ joinChar sep parts →
      c = sep ∨ ∃ p ∈ parts, c ∈ p := by
  intro parts
  induction parts with
  | nil => intro h; simp [joinChar] at h
  | cons t ts ih =>
    intro h
    cases ts with
    | nil => exact Or.inr ⟨t, List.mem_cons_self t [], h⟩
    | cons t2 ts' =>
      rw [joinChar_cons_cons] at h
      rcases List.mem_append.mp h with h | h
      · exact Or.inr ⟨t, List.mem_cons_self t _, h⟩
      · rcases List.mem_cons.mp h with rfl | h
        · exact Or.inl rfl
        · rcases ih h with rfl | ⟨p, hp, hcp⟩
          · exact Or.inl rfl
          · exact Or.inr ⟨p, List.mem_cons_of_mem _ hp, hcp⟩

theorem headerTok_line (label : List Char) (val : PyNum)
    (hlab_ne : label ≠ []) (hlab : ∀ c ∈ label, isWS c = false) :
    pySplit (trimL (label ++ ' ' :: pyStrL val)) = [label, pyStrL val] := by
  have htok_ne := pyStrL_ne_nil val
  have htrim : trimL (label ++ ' ' :: pyStrL val)
      = label ++ ' ' :: pyStrL val := by
    apply trimL_eq_self
    · intro c hc
      cases label with
      | nil => exact absurd rfl hlab_ne
      | cons a l =>
        rw [List.cons_append] at hc
        injection hc with hc
        exact hc ▸ hlab a (List.mem_cons_self a l)
    · intro c hc
      rw [List.getLast?_append] at hc
      obtain ⟨x, hx⟩ : ∃ x, (pyStrL val).getLast? = some x := by
        cases hgl : (pyStrL val).getLast? with
        | none => exact absurd (List.getLast?_eq_none_iff.mp hgl) htok_ne
        | some x => exact ⟨x, rfl⟩
      have h2 : (' ' :: pyStrL val).getLast? = some x := by
        rw [show (' ' :: pyStrL val) = [' '] ++ pyStrL val from rfl,
          List.getLast?_append, hx]
        rfl
      rw [h2] at hc
      have hxc : x = c := by
        simp only [Option.or_some] at hc
        injection hc
      exact hxc ▸ pyStrL_not_ws val x (List.mem_of_getLast?_eq_some hx)
  rw [htrim,
    show label ++ ' ' :: pyStrL val = joinChar ' ' [label, pyStrL val] from rfl]
  apply pySplit_join
  intro t ht
  rcases List.mem_cons.mp ht with rfl | ht
  · exact ⟨hlab_ne, hlab⟩
  · rcases List.mem_cons.mp ht with rfl | ht
    · exact ⟨htok_ne, pyStrL_not_ws val⟩
    · simp at ht

theorem trim_rowChars {ch : List ℚ} (hch : ch ≠ []) :
    trimL (rowChars ch) = rowChars ch := by
  obtain ⟨q0, ch', rfl⟩ : ∃ q0 ch', ch = q0 :: ch' := by
    cases ch with
    | nil => exact absurd rfl hch
    | cons q0 ch' => exact ⟨q0, ch', rfl⟩
  apply trimL_eq_self
  · intro c hc
    rw [rowChars, List.map_cons,
      joinChar_head ' ' _ _ (printPyFloatL_ne_nil q0)] at hc
    exact (printTok_char_facts
      (printPyFloatL_chars q0 c (mem_of_head?_eq_some hc))).1
  · intro c hc
    rw [rowChars] at hc
    obtain ⟨u, hu, hju⟩ := joinChar_getLast ' ' ((q0 :: ch').map printPyFloatL)
      (by simp) (by
        intro u hu
        obtain ⟨q, -, rfl⟩ := List.mem_map.mp hu
        exact printPyFloatL_ne_nil q)
    rw [hju] at hc
    obtain ⟨q, -, rfl⟩ := List.mem_map.mp hu
    exact (printTok_char_facts (printPyFloatL_chars q c
      (List.mem_of_getLast?_eq_some hc))).1

theorem rowChars_ne_newline (ch : List ℚ) : ∀ c ∈ rowChars ch, c ≠ '\n' := by
  intro c hc
  rw [rowChars] at hc
  rcases mem_joinChar hc with rfl | ⟨p, hp, hcp⟩
  · decide
  · obtain ⟨q, -, rfl⟩ := List.mem_map.mp hp
    exact (printTok_char_facts (printPyFloatL_chars q c hcp)).2

theorem headerLine_ne_newline {label : List Char} {val : PyNum}
    (hlab : ∀ c ∈ label, c ≠ '\n') :
    ∀ c ∈ label ++ ' ' :: pyStrL val, c ≠ '\n' := by
  intro c hc
  rcases List.mem_append.mp hc with hc | hc
  · exact hlab c hc
  · rcases List.mem_cons.mp hc with rfl | hc
    · decide
    · exact pyStrL_ne_newline val c hc

theorem decode_writeL (nc nr : ℤ) (xl yl : ℚ) (cz : ℤ) (nd : ℚ) (ds : List ℚ)
    (hxl : DecimalRep xl) (hyl : DecimalRep yl) (hnd : DecimalRep nd)
    (hds : ∀ q ∈ ds, DecimalRep q)
    (hlen : (ds.length : ℤ) = nr * nc)
    (hnc : 0 < nc) (hnr : 0 < nr) :
    ∃ out : List Char,
      writeL ⟨.int nc, .int nr, .float xl, .float yl, .int cz, .float nd, ds⟩
        = some out ∧
      decodeCore out
        = .ok ⟨.int nc, .int nr, .float xl, .float yl, .int cz, .float nd, ds⟩ ∧
      headerLinesOf out = canonicalHeader
        ⟨.int nc, .int nr, .float xl, .float yl, .int cz, .float nd, ds⟩ := by
  set G : ESRIAsc := ⟨.int nc, .int nr, .float xl, .float yl, .int cz,
    .float nd, ds⟩ with hG
  have hrc : (((nr.toNat * nc.toNat : ℕ)) : ℤ) = nr * nc := by
    push_cast
    rw [Int.toNat_of_nonneg (by omega), Int.toNat_of_nonneg (by omega)]
  have hlen' : ds.length = nr.toNat * nc.toNat := by
    exact_mod_cast hlen.trans hrc.symm
  have hc0 : 0 < nc.toNat := by omega
  set chunks := chunkRows nc.toNat nr.toNat ds with hchunks
  set rows := chunks.map rowChars with hrows
  set out := joinChar '\n' (canonicalHeader G ++ rows) with hout
  have hchlen : ∀ ch ∈ chunks, ch.length = nc.toNat :=
    chunkRows_mem_length nc.toNat nr.toNat ds hlen'
  have hchne : ∀ ch ∈ chunks, ch ≠ [] := by
    intro ch hch hnil
    have := hchlen ch hch
    rw [hnil] at this
    simp at this
    omega
  have hwrite : writeL G = some out := by
    rw [writeL]
    show (match pyDim (PyNum.int nr), pyDim (PyNum.int nc) with
      | some r, some c =>
        if G.data.length = r * c then
          some (joinChar '\n' (canonicalHeader G ++ (chunkRows c r G.data).map rowChars))
        else none
      | _, _ => none) = some out
    rw [show pyDim (PyNum.int nr) = some nr.toNat from by
        rw [pyDim, if_pos (by omega)],
      show pyDim (PyNum.int nc) = some nc.toNat from by
        rw [pyDim, if_pos (by omega)]]
    dsimp only
    rw [if_pos hlen']
  have hlines_ne_nl : ∀ p ∈ canonicalHeader G ++ rows, ∀ c ∈ p, c ≠ '\n' := by
    intro p hp
    rcases List.mem_append.mp hp with hp | hp
    · rw [hG] at hp
      simp only [canonicalHeader, List.mem_cons] at hp
      rcases hp with rfl | rfl | rfl | rfl | rfl | rfl | hp
      · exact headerLine_ne_newline (by decide)
      · exact headerLine_ne_newline (by decide)
      · exact headerLine_ne_newline (by decide)
      · exact headerLine_ne_newline (by decide)
      · exact headerLine_ne_newline (by decide)
      · exact headerLine_ne_newline (by decide)
      · simp at hp
    · obtain ⟨ch, -, rfl⟩ := List.mem_map.mp hp
      exact rowChars_ne_newline ch
  have hsplitnl : splitOnChar '\n' out = canonicalHeader G ++ rows := by
    rw [hout]
    exact splitOnChar_join '\n' _ (by rw [hG]; simp [canonicalHeader])
      hlines_ne_nl
  set lines := canonicalHeader G ++ rows with hlines
  have htok : ∀ (i : Nat) (label : List Char) (val : PyNum),
      lines.getD i [] = label ++ ' ' :: pyStrL val → label ≠ [] →
      (∀ c ∈ label, isWS c = false) →
      headerTokAt lines i = some (pyStrL val) := by
    intro i label val hgd hne hws
    rw [headerTokAt, hgd, headerTok_line label val hne hws]
    rfl
  have htok0 : headerTokAt lines 0 = some (pyStrL (PyNum.int nc)) :=
    htok 0 "ncols".data _ rfl (by decide) (by decide)
  have htok1 : headerTokAt lines 1 = some (pyStrL (PyNum.int nr)) :=
    htok 1 "nrows".data _ rfl (by decide) (by decide)
  have htok2 : headerTokAt lines 2 = some (pyStrL (PyNum.float xl)) :=
    htok 2 "xllcorner".data _ rfl (by decide) (by decide)
  have htok3 : headerTokAt lines 3 = some (pyStrL (PyNum.float yl)) :=
    htok 3 "yllcorner".data _ rfl (by decide) (by decide)
  have htok4 : headerTokAt lines 4 = some (pyStrL (PyNum.int cz)) :=
    htok 4 "cellsize".data _ rfl (by decide) (by decide)
  have htok5 : headerTokAt lines 5 = some (pyStrL (PyNum.float nd)) :=
    htok 5 "NODATA_value".data _ rfl (by decide) (by decide)
  have hheader : decodeHeader6 lines = some (nc, nr, xl, yl, cz, nd) := by
    rw [decodeHeader6, htok0, Option.some_bind, htok1, Option.some_bind,
      htok2, Option.some_bind, htok3, Option.some_bind, htok4,
      Option.some_bind, htok5, Option.some_bind,
      show pyStrL (PyNum.int nc) = printPyIntL nc from rfl,
      parsePyIntL_printPyIntL, Option.some_bind,
      show pyStrL (PyNum.int nr) = printPyIntL nr from rfl,
      parsePyIntL_printPyIntL, Option.some_bind,
      show pyStrL (PyNum.float xl) = printPyFloatL xl from rfl,
      parsePyFloatL_printPyFloatL hxl, Option.some_bind,
      show pyStrL (PyNum.float yl) = printPyFloatL yl from rfl,
      parsePyFloatL_printPyFloatL hyl, Option.some_bind,
      show pyStrL (PyNum.int cz) = printPyIntL cz from rfl,
      parsePyIntL_printPyIntL, Option.some_bind,
      show pyStrL (PyNum.float nd) = printPyFloatL nd from rfl,
      parsePyFloatL_printPyFloatL hnd, Option.some_bind]
  have hdropped : lines.drop 6 = rows := rfl
  have hmap_trim : rows.map trimL = rows := by
    have hall : ∀ row ∈ rows, trimL row = row := by
      intro row hrow
      obtain ⟨ch, hch, rfl⟩ := List.mem_map.mp hrow
      exact trim_rowChars (hchne ch hch)
    calc rows.map trimL = rows.map id := List.map_congr_left hall
      _ = rows := List.map_id rows
  have hjoinrows : joinChar ' ' rows
      = joinChar ' ' (ds.map printPyFloatL) := by
    have hrows2 : rows
        = (chunks.map (fun ch => ch.map printPyFloatL)).map (joinChar ' ') := by
      rw [hrows, List.map_map]
      rfl
    rw [hrows2, joinChar_map_join _ (by
        intro xs hxs
        obtain ⟨ch, hch, rfl⟩ := List.mem_map.mp hxs
        simpa using hchne ch hch),
      ← List.map_flatten, hchunks, chunkRows_flatten nc.toNat nr.toNat ds hlen']
  have hdata : (dataTokens lines).mapM parsePyFloatL = some ds := by
    rw [dataTokens, hdropped, hmap_trim, hjoinrows,
      pySplit_join _ (by
        intro t ht
        obtain ⟨q, -, rfl⟩ := List.mem_map.mp ht
        exact ⟨printPyFloatL_ne_nil q,
          fun c hc => (printTok_char_facts (printPyFloatL_chars q c hc)).1⟩),
      mapM_parse_print ds hds]
  refine ⟨out, hwrite, ?_, ?_⟩
  · rw [decodeCore]
    show (match decodeHeader6 (splitOnChar '\n' out) with
      | none => Except.error DecodeError.headerError
      | some (nc, nr, xl, yl, cz, nd) =>
        match (dataTokens (splitOnChar '\n' out)).mapM parsePyFloatL with
        | none => Except.error DecodeError.dataError
        | some ds =>
          if (ds.length : ℤ) = nr * nc then
            Except.ok ⟨.int nc, .int nr, .float xl, .float yl, .int cz,
              .float nd, ds⟩
          else Except.error DecodeError.formatError) = Except.ok G
    rw [hsplitnl, hheader]
    dsimp only
    rw [hdata]
    dsimp only
    rw [if_pos hlen]
  · rw [headerLinesOf, hsplitnl, List.take_left' (by rw [hG]; rfl)]

/-! ### Claims C3 and C6 -/

unseal Rat.add Rat.mul Rat.inv Rat.sub Rat.ofScientific in
/-- Counterexample to claim C3 as stated: the raster text whose
`NODATA_value` header line reads `-9999` (integer notation for the
float-typed field) decodes successfully, but re-encoding re-prints that
field through `str(float(...))` as `-9999.0`, so the six header lines of
the output are not byte-equivalent to those of the input. -/
theorem esriasc_write_not_byte_identical :
    ESRIAsc.decode
        "ncols 1\nnrows 1\nxllcorner 0.0\nyllcorner 0.0\ncellsize 1\nNODATA_value -9999\n5.0"
      = .ok ⟨.int 1, .int 1, .float 0, .float 0, .int 1, .float (-9999), [5]⟩ ∧
    ESRIAsc.write ⟨.int 1, .int 1, .float 0, .float 0, .int 1, .float (-9999), [5]⟩
      = some "ncols 1\nnrows 1\nxllcorner 0.0\nyllcorner 0.0\ncellsize 1\nNODATA_value -9999.0\n5.0" ∧
    headerLinesOf
        "ncols 1\nnrows 1\nxllcorner 0.0\nyllcorner 0.0\ncellsize 1\nNODATA_value -9999.0\n5.0".data
      ≠ headerLinesOf
        "ncols 1\nnrows 1\nxllcorner 0.0\nyllcorner 0.0\ncellsize 1\nNODATA_value -9999\n5.0".data := by
  decide

/-- Claim C3 (amended).  Round trip after correcting the byte-equivalence
demand: decoding any well-formed raster text (positive dimensions, no
undefined values — the rational model has none) and re-encoding the
resulting grid succeeds, the re-encoded text decodes to the very same grid
(so every header value and every data value is numerically equal), and the
six header lines of the output are exactly the canonical re-printed lines
`canonicalHeader g`.  Byte-equivalence of headers holds only when the input
header lines were already in canonical `str()` form; the counterexample
shows a float field written in integer notation breaks it. -/
theorem esriasc_decode_write_roundtrip (s : String) (g : ESRIAsc)
    (hdec : ESRIAsc.decode s = .ok g)
    (hnc : 0 < g.ncols.pyIntVal) (hnr : 0 < g.nrows.pyIntVal) :
    ∃ out : String, ESRIAsc.write g = some out ∧
      ESRIAsc.decode out = .ok g ∧
      headerLinesOf out.data = canonicalHeader g := by
  obtain ⟨nc, nr, xl, yl, cz, nd, hhead, hshape, hdsdec, hlen⟩ :=
    decodeCore_ok hdec
  obtain ⟨hxl, hyl, hnd⟩ := decodeHeader6_some hhead
  have h1 : g.ncols = .int nc := by rw [hshape]
  have h2 : g.nrows = .int nr := by rw [hshape]
  rw [h1] at hnc
  rw [h2] at hnr
  obtain ⟨out, hw, hd, hh⟩ := decode_writeL nc nr xl yl cz nd g.data
    hxl hyl hnd hdsdec hlen hnc hnr
  have hwg : writeL g = some out := by
    conv_lhs => rw [hshape]
    exact hw
  refine ⟨String.mk out, ?_, ?_, ?_⟩
  · rw [ESRIAsc.write, hwg]
    rfl
  · show decodeCore out = .ok g
    rw [hd, ← hshape]
  · show headerLinesOf out = canonicalHeader g
    rw [hh, ← hshape]

unseal Rat.add Rat.mul Rat.inv Rat.sub Rat.ofScientific in
/-- Witness for C3: the counterexample input itself satisfies the amended
round trip. -/
theorem esriasc_decode_write_roundtrip_witness :
    ESRIAsc.decode
        "ncols 1\nnrows 1\nxllcorner 0.0\nyllcorner 0.0\ncellsize 1\nNODATA_value -9999\n5.0"
      = .ok ⟨.int 1, .int 1, .float 0, .float 0, .int 1, .float (-9999), [5]⟩ ∧
    (0 : ℤ) < (PyNum.int 1).pyIntVal ∧
    ∃ out : String,
      ESRIAsc.write ⟨.int 1, .int 1, .float 0, .float 0, .int 1, .float (-9999), [5]⟩
        = some out ∧
      ESRIAsc.decode out
        = .ok ⟨.int 1, .int 1, .float 0, .float 0, .int 1, .float (-9999), [5]⟩ ∧
      headerLinesOf out.data
        = canonicalHeader ⟨.int 1, .int 1, .float 0, .float 0, .int 1, .float (-9999), [5]⟩ :=
  ⟨by decide, by decide,
    esriasc_decode_write_roundtrip
      "ncols 1\nnrows 1\nxllcorner 0.0\nyllcorner 0.0\ncellsize 1\nNODATA_value -9999\n5.0"
      ⟨.int 1, .int 1, .float 0, .float 0, .int 1, .float (-9999), [5]⟩
      (by decide) (by decide) (by decide)⟩

/-- Claim C6.  The decode length check: (1) every successfully decoded grid
satisfies `len(data) == ncols * nrows`; (2) whenever the six header lines
parse and all data tokens parse as floats but the token count differs from
`nrows * ncols`, decoding fails with `formatError` (the spec's
FormatError). -/
theorem esriasc_decode_length_check :
    (∀ (s : String) (g : ESRIAsc), ESRIAsc.decode s = .ok g →
      (g.data.length : ℤ) = g.ncols.pyIntVal * g.nrows.pyIntVal) ∧
    (∀ (s : String) (nc nr : ℤ) (xl yl : ℚ) (cz : ℤ) (nd : ℚ) (ds : List ℚ),
      decodeHeader6 (splitOnChar '\n' s.data) = some (nc, nr, xl, yl, cz, nd) →
      (dataTokens (splitOnChar '\n' s.data)).mapM parsePyFloatL = some ds →
      (ds.length : ℤ) ≠ nr * nc →
      ESRIAsc.decode s = .error DecodeError.formatError) := by
  constructor
  · intro s g hdec
    obtain ⟨nc, nr, xl, yl, cz, nd, -, hshape, -, hlen⟩ := decodeCore_ok hdec
    have h1 : g.ncols = .int nc := by rw [hshape]
    have h2 : g.nrows = .int nr := by rw [hshape]
    rw [h1, h2]
    show (g.data.length : ℤ) = nc * nr
    rw [mul_comm]
    exact hlen
  · intro s nc nr xl yl cz nd ds hhead hdata hne
    show decodeCore s.data = .error DecodeError.formatError
    rw [decodeCore]
    show (match decodeHeader6 (splitOnChar '\n' s.data) with
      | none => Except.error DecodeError.headerError
      | some (nc, nr, xl, yl, cz, nd) =>
        match (dataTokens (splitOnChar '\n' s.data)).mapM parsePyFloatL with
        | none => Except.error DecodeError.dataError
        | some ds =>
          if (ds.length : ℤ) = nr * nc then
            Except.ok (ESRIAsc.mk (.int nc) (.int nr) (.float xl) (.float yl)
              (.int cz) (.float nd) ds)
          else Except.error DecodeError.formatError)
      = Except.error DecodeError.formatError
    rw [hhead]
    dsimp only
    rw [hdata]
    dsimp only
    rw [if_neg hne]

unseal Rat.add Rat.mul Rat.inv Rat.sub Rat.ofScientific in
/-- Witness for C6: a 1-by-2 raster with two data tokens decodes and
satisfies the length invariant, and the same header followed by three
tokens is rejected with `formatError`. -/
theorem esriasc_decode_length_check_witness :
    ESRIAsc.decode
        "ncols 2\nnrows 1\nxllcorner 0.0\nyllcorner 0.0\ncellsize 1\nNODATA_value -9999.0\n1.0 2.0"
      = .ok ⟨.int 2, .int 1, .float 0, .float 0, .int 1, .float (-9999), [1, 2]⟩ ∧
    ((([1, 2] : List ℚ).length : ℤ)
        = (PyNum.int 2).pyIntVal * (PyNum.int 1).pyIntVal) ∧
    ESRIAsc.decode
        "ncols 2\nnrows 1\nxllcorner 0.0\nyllcorner 0.0\ncellsize 1\nNODATA_value -9999.0\n1.0 2.0 3.0"
      = .error DecodeError.formatError :=
  ⟨by decide,
    esriasc_decode_length_check.1
      "ncols 2\nnrows 1\nxllcorner 0.0\nyllcorner 0.0\ncellsize 1\nNODATA_value -9999.0\n1.0 2.0"
      ⟨.int 2, .int 1, .float 0, .float 0, .int 1, .float (-9999), [1, 2]⟩
      (by decide),
    esriasc_decode_length_check.2
      "ncols 2\nnrows 1\nxllcorner 0.0\nyllcorner 0.0\ncellsize 1\nNODATA_value -9999.0\n1.0 2.0 3.0"
      2 1 0 0 1 (-9999) [1, 2, 3] (by decide) (by decide) (by decide)⟩
